import Mathlib

/-!
Verification development for the semantic-analysis core of the quil-rust
repository: the expression engine (`src/expression.rs`,
`quil-rs/src/expression/simplification/mod.rs`) and the execution dependency
graph engine (`quil-rs/src/stats/execution_graph.rs`).

The embedding abstracts the scalar type: `num_complex::Complex64` is a pair of
IEEE doubles, which has no faithful shallow embedding, so every definition is
parametric in a carrier `C` together with a `ComplexOps C` record supplying the
arithmetic and the transcendental functions the source calls on that type.
Structural properties of the engines are proved for every choice of carrier;
concrete witnesses instantiate `C` with pairs of rationals.
-/

namespace QuilSpec

/-- Mirrors `MemoryReference { name, index }` from `instruction.rs` (only the
fields used by `expression.rs` are relevant here). -/
structure MemoryReference where
  name : String
  index : Nat
deriving DecidableEq, Repr

/-- Mirrors `enum ExpressionFunction` from `src/expression.rs`. -/
inductive ExpressionFunction where
  | cis
  | cosine
  | exponent
  | sine
  | squareRoot
deriving DecidableEq, Repr

/-- Mirrors `enum PrefixOperator` from `src/expression.rs`. -/
inductive PrefixOperator where
  | plus
  | minus
deriving DecidableEq, Repr

/-- Mirrors `enum InfixOperator` from `src/expression.rs`. -/
inductive InfixOperator where
  | caret
  | plus
  | minus
  | slash
  | star
deriving DecidableEq, Repr

/-- Mirrors `enum Expression` from `src/expression.rs`; `C` abstracts
`num_complex::Complex64`. Constructor names: `var` stands for `Variable`
(a Lean keyword), `infixExpr`/`prefixExpr` for the `Infix`/`Prefix` variants. -/
inductive Expression (C : Type) where
  | address (memoryReference : MemoryReference)
  | functionCall (function : ExpressionFunction) (expression : Expression C)
  | infixExpr (left : Expression C) (operator : InfixOperator) (right : Expression C)
  | number (value : C)
  | piConstant
  | prefixExpr (operator : PrefixOperator) (expression : Expression C)
  | var (identifier : String)
deriving DecidableEq, Repr

/-- The operations `src/expression.rs` uses on `num_complex::Complex64`:
field arithmetic, `powc`, the unary analytic functions, the imaginary unit
`imag!(1f64)`, the constant `PI`, and the literals `0` and `1`. -/
structure ComplexOps (C : Type) where
  add : C → C → C
  sub : C → C → C
  mul : C → C → C
  div : C → C → C
  pow : C → C → C
  neg : C → C
  sin : C → C
  cos : C → C
  exp : C → C
  sqrt : C → C
  iUnit : C
  pi : C
  zero : C
  one : C

variable {C : Type}

/-- Mirrors `calculate_infix` (`src/expression.rs:51`): apply an infix operator
to two complex operands. -/
def calculateInfixOp (ops : ComplexOps C) (left : C) (operator : InfixOperator) (right : C) : C :=
  match operator with
  | .caret => ops.pow left right
  | .plus => ops.add left right
  | .minus => ops.sub left right
  | .slash => ops.div left right
  | .star => ops.mul left right

/-- Mirrors `calculate_function` (`src/expression.rs:67`): apply a Quil-defined
expression function to a complex operand; `Cis => cos + i * sin`. -/
def calculate_function (ops : ComplexOps C) (function : ExpressionFunction) (argument : C) : C :=
  match function with
  | .sine => ops.sin argument
  | .cis => ops.add (ops.cos argument) (ops.mul ops.iUnit (ops.sin argument))
  | .cosine => ops.cos argument
  | .exponent => ops.exp argument
  | .squareRoot => ops.sqrt argument

/-- Mirrors `EvaluationEnvironment = HashMap<String, Complex64>`; modelled as an
association list queried with `List.lookup`. -/
def EvaluationEnvironment (C : Type) : Type := List (String × C)

/-- Mirrors `HashMap<&str, Vec<f64>>` of patch values; entries hold the complex
embeddings `real!(v)` of the stored reals. -/
def PatchValues (C : Type) : Type := List (String × List C)

/-- The `Address` arm's lookup (`src/expression.rs:154-158`): find the region
by name, then the entry at the reference's index. -/
def resolveAddress (patchValues : Option (PatchValues C)) (m : MemoryReference) : Option C :=
  patchValues.bind fun pv => (List.lookup m.name pv).bind fun values => values.get? m.index

/-- Mirrors `EvaluationError` (`src/expression.rs:24`). -/
inductive EvaluationError where
  | incomplete
deriving DecidableEq, Repr

/-- Mirrors `Expression::evaluate` (`src/expression.rs:87-165`) arm for arm.
Note the `Prefix` arm matches the operand literally without evaluating it
first, exactly as the source does (`let prefixed_expression = *expression;`). -/
def evaluate (ops : ComplexOps C) :
    Expression C → EvaluationEnvironment C → Option (PatchValues C) → Expression C
  | .functionCall function expression, environment, patchValues =>
    match evaluate ops expression environment patchValues with
    | .number value => .number (calculate_function ops function value)
    | .piConstant => .number (calculate_function ops function ops.pi)
    | evaluated => .functionCall function evaluated
  | .infixExpr left operator right, environment, patchValues =>
    match evaluate ops left environment patchValues, evaluate ops right environment patchValues with
    | .number valueLeft, .number valueRight =>
      .number (calculateInfixOp ops valueLeft operator valueRight)
    | .piConstant, .number value => .number (calculateInfixOp ops ops.pi operator value)
    | .number value, .piConstant => .number (calculateInfixOp ops value operator ops.pi)
    | leftEvaluated, rightEvaluated => .infixExpr leftEvaluated operator rightEvaluated
  | .prefixExpr operator expression, _, _ =>
    match operator, expression with
    | .minus, .number value => .number (ops.neg value)
    | .minus, .piConstant => .number (ops.neg ops.pi)
    | .minus, expr => .prefixExpr .minus expr
    | .plus, expr => expr
  | .var identifier, environment, _ =>
    match List.lookup identifier environment with
    | some value => .number value
    | none => .var identifier
  | .address memoryReference, _, patchValues =>
    match resolveAddress patchValues memoryReference with
    | some value => .number value
    | none => .address memoryReference
  | .piConstant, _, _ => .piConstant
  | .number n, _, _ => .number n

/-- Mirrors `Expression::evaluate_to_complex` (`src/expression.rs:169-182`). -/
def evaluate_to_complex (ops : ComplexOps C) (e : Expression C)
    (environment : EvaluationEnvironment C) (patchValues : Option (PatchValues C)) :
    Except EvaluationError C :=
  match evaluate ops e environment patchValues with
  | .number value => .ok value
  | .piConstant => .ok ops.pi
  | _ => .error .incomplete

/-- Discriminator for the `Number` variant. -/
def isNumber : Expression C → Bool
  | .number _ => true
  | _ => false

/-- Discriminator: the expression is a `Number` or the symbolic `PiConstant`,
the two shapes `evaluate_to_complex` accepts. -/
def isNumberOrPi : Expression C → Bool
  | .number _ => true
  | .piConstant => true
  | _ => false

/-- The expression contains no `Variable` or `Address` leaf (fully numeric). -/
def symbolFree : Expression C → Bool
  | .address _ => false
  | .var _ => false
  | .number _ => true
  | .piConstant => true
  | .functionCall _ e => symbolFree e
  | .infixExpr l _ r => symbolFree l && symbolFree r
  | .prefixExpr _ e => symbolFree e

/-- The expression contains no `Prefix` node. -/
def prefixFree : Expression C → Bool
  | .prefixExpr _ _ => false
  | .functionCall _ e => prefixFree e
  | .infixExpr l _ r => prefixFree l && prefixFree r
  | _ => true

/-! ### Simplification

`quil-rs/src/expression/simplification/mod.rs` delegates to `by_hand::run`,
whose source file is not part of this snapshot; only its test suite is.  The
simplifier below is therefore modelled from the specification's description of
the rewrite system and is exercised against the behaviours the in-tree tests
pin down. -/

/-- Number of nodes of the expression tree. -/
def exprSize : Expression C → Nat
  | .address _ => 1
  | .var _ => 1
  | .number _ => 1
  | .piConstant => 1
  | .functionCall _ e => exprSize e + 1
  | .infixExpr l _ r => exprSize l + exprSize r + 1
  | .prefixExpr _ e => exprSize e + 1

/-- Number of symbolic leaves (`Variable`, `Address`, `PiConstant`). -/
def symCount : Expression C → Nat
  | .address _ => 1
  | .var _ => 1
  | .number _ => 0
  | .piConstant => 1
  | .functionCall _ e => symCount e
  | .infixExpr l _ r => symCount l + symCount r
  | .prefixExpr _ e => symCount e

/-- Termination measure for the simplifier: every rewrite rule strictly
decreases it. -/
def simpMeasure (e : Expression C) : Nat := exprSize e + symCount e

/-- Modelled from the spec: decompose one addend of an affine combination into
optional coefficient, symbolic term, and optional constant — the shapes
`a*x + b`, `x + b`, `a*x`, and bare `x` ("including the degenerate cases where
only the coefficient term or only the constant term is present"). -/
def affineParts : Expression C → Option (Expression C) × Expression C × Option (Expression C)
  | .infixExpr (.infixExpr a .star x) .plus b => (some a, x, some b)
  | .infixExpr x .plus b => (none, x, some b)
  | .infixExpr a .star x => (some a, x, none)
  | x => (none, x, none)

/-- Modelled from the spec: rebuild the coefficient of a merged affine
combination; a missing coefficient stands for `1`, two missing coefficients
fold to the literal `2`. -/
def affineCoeff (ops : ComplexOps C) :
    Option (Expression C) → Option (Expression C) → Expression C
  | some a1, some a2 => .infixExpr a1 .plus a2
  | some a1, none => .infixExpr a1 .plus (.number ops.one)
  | none, some a2 => .infixExpr (.number ops.one) .plus a2
  | none, none => .number (ops.add ops.one ops.one)

/-- Modelled from the spec: affine-combination merging — recognize
`(a1*x + b1) + (a2*x + b2)` (same symbolic `x` on both sides, coefficients and
constants optional) and fold it to `(a1+a2)*x + (b1+b2)`. -/
def affineMerge [DecidableEq C] (ops : ComplexOps C) (l r : Expression C) :
    Option (Expression C) :=
  match affineParts l, affineParts r with
  | (a1, x1, b1), (a2, x2, b2) =>
    if x1 = x2 ∧ ¬ isNumber x1 then
      let cx : Expression C := .infixExpr (affineCoeff ops a1 a2) .star x1
      match b1, b2 with
      | some c1, some c2 => some (.infixExpr cx .plus (.infixExpr c1 .plus c2))
      | some c1, none => some (.infixExpr cx .plus c1)
      | none, some c2 => some (.infixExpr cx .plus c2)
      | none, none => some cx
    else none

/-- Modelled from the spec: rules applied at a `+` node (additive identity
elimination, then affine merging). -/
def rewritePlus [DecidableEq C] (ops : ComplexOps C) (l r : Expression C) : Expression C :=
  if l = .number ops.zero then r
  else if r = .number ops.zero then l
  else
    match affineMerge ops l r with
    | some merged => merged
    | none => .infixExpr l .plus r

/-- Modelled from the spec: rules applied at a `-` node (`x-0→x`, `x-x→0`,
`x-(-y)→x+y`). -/
def rewriteMinus [DecidableEq C] (ops : ComplexOps C) (l r : Expression C) : Expression C :=
  if r = .number ops.zero then l
  else if l = r then .number ops.zero
  else
    match r with
    | .prefixExpr .minus y => .infixExpr l .plus y
    | _ => .infixExpr l .minus r

/-- Modelled from the spec: double-negation collapse and product/quotient
cross-cancellation at a `*` node — `(-x)*(-y)→x*y`, `(x/y)*y→x`, `y*(x/y)→x`;
`none` when no such rule matches. -/
def starCancel [DecidableEq C] (l r : Expression C) : Option (Expression C) :=
  match l, r with
  | .prefixExpr .minus x, .prefixExpr .minus y => some (.infixExpr x .star y)
  | .infixExpr x .slash y, _ => if r = y then some x else none
  | _, .infixExpr x .slash y => if l = y then some x else none
  | _, _ => none

/-- Modelled from the spec: rules applied at a `*` node (`x*0→0`, `0*x→0`,
`x*1→x`, `1*x→x`, then the `starCancel` rules). -/
def rewriteStar [DecidableEq C] (ops : ComplexOps C) (l r : Expression C) : Expression C :=
  if l = .number ops.zero ∨ r = .number ops.zero then .number ops.zero
  else if l = .number ops.one then r
  else if r = .number ops.one then l
  else
    match starCancel l r with
    | some cancelled => cancelled
    | none => .infixExpr l .star r

/-- Modelled from the spec: double-negation collapse and cross-cancellation at
a `/` node — `(-x)/(-y)→x/y`, `(y*x)/x→y`, `(x*y)/x→y`, `x/(y*x)→1/y`,
`x/(x*y)→1/y`; `none` when no such rule matches. -/
def slashCancel [DecidableEq C] (ops : ComplexOps C) (l r : Expression C) :
    Option (Expression C) :=
  match l, r with
  | .prefixExpr .minus x, .prefixExpr .minus y => some (.infixExpr x .slash y)
  | .infixExpr y .star x, _ =>
    if r = x then some y else if r = y then some x else none
  | _, .infixExpr y .star x =>
    if l = x then some (.infixExpr (.number ops.one) .slash y)
    else if l = y then some (.infixExpr (.number ops.one) .slash x)
    else none
  | _, _ => none

/-- Modelled from the spec: rules applied at a `/` node (`0/x→0`, `x/1→x`,
`x/x→1`, then the `slashCancel` rules). -/
def rewriteSlash [DecidableEq C] (ops : ComplexOps C) (l r : Expression C) : Expression C :=
  if l = .number ops.zero then .number ops.zero
  else if r = .number ops.one then l
  else if l = r then .number ops.one
  else
    match slashCancel ops l r with
    | some cancelled => cancelled
    | none => .infixExpr l .slash r

/-- Modelled from the spec: rules applied at a `^` node (`x^0→1`, `0^x→0`). -/
def rewriteCaret [DecidableEq C] (ops : ComplexOps C) (l r : Expression C) : Expression C :=
  if r = .number ops.zero then .number ops.one
  else if l = .number ops.zero then .number ops.zero
  else .infixExpr l .caret r

/-- Modelled from the spec: one rewrite attempt at the root of an infix node —
constant folding first, then the operator-specific identities. -/
def rewriteInfixNode [DecidableEq C] (ops : ComplexOps C)
    (l : Expression C) (operator : InfixOperator) (r : Expression C) : Expression C :=
  match l, r with
  | .number a, .number b => .number (calculateInfixOp ops a operator b)
  | _, _ =>
    match operator with
    | .plus => rewritePlus ops l r
    | .minus => rewriteMinus ops l r
    | .star => rewriteStar ops l r
    | .slash => rewriteSlash ops l r
    | .caret => rewriteCaret ops l r

/-- Modelled from the spec: one rewrite attempt at the root of the tree. -/
def rewriteTop [DecidableEq C] (ops : ComplexOps C) : Expression C → Expression C
  | .piConstant => .number ops.pi
  | .functionCall f a =>
    match a with
    | .number v => .number (calculate_function ops f v)
    | _ => .functionCall f a
  | .prefixExpr .plus a => a
  | .prefixExpr .minus a =>
    match a with
    | .number v => .number (ops.neg v)
    | .prefixExpr .minus y => y
    | _ => .prefixExpr .minus a
  | .infixExpr l operator r => rewriteInfixNode ops l operator r
  | e => e

/-- Modelled from the spec: one bottom-up simplification pass — children first,
then a rewrite attempt at each node on the way up. -/
def pass [DecidableEq C] (ops : ComplexOps C) : Expression C → Expression C
  | .functionCall f e => rewriteTop ops (.functionCall f (pass ops e))
  | .infixExpr l operator r => rewriteTop ops (.infixExpr (pass ops l) operator (pass ops r))
  | .prefixExpr operator e => rewriteTop ops (.prefixExpr operator (pass ops e))
  | e => rewriteTop ops e

/-- Iterate `pass` until a fixed point, with explicit fuel; `simpMeasure e + 1`
units of fuel always suffice because every productive pass strictly decreases
the measure. -/
def simplifyFuel [DecidableEq C] (ops : ComplexOps C) : Nat → Expression C → Expression C
  | 0, e => e
  | fuel + 1, e =>
    let e' := pass ops e
    if e' = e then e else simplifyFuel ops fuel e'

/-- Modelled from the spec: `simplify` / `simplification::run` — apply the
rewrite system until no rule fires. -/
def simplify [DecidableEq C] (ops : ComplexOps C) (e : Expression C) : Expression C :=
  simplifyFuel ops (simpMeasure e + 1) e

/-- The expression contains no `/` and no `^` operator (the fragment on which
the rewrite system is value-preserving). -/
def slashCaretFree : Expression C → Bool
  | .infixExpr l operator r =>
    (match operator with
     | .slash => false
     | .caret => false
     | _ => true) && slashCaretFree l && slashCaretFree r
  | .functionCall _ e => slashCaretFree e
  | .prefixExpr _ e => slashCaretFree e
  | _ => true

/-- The expression contains no `PiConstant` node. -/
def piFree : Expression C → Bool
  | .piConstant => false
  | .functionCall _ e => piFree e
  | .infixExpr l _ r => piFree l && piFree r
  | .prefixExpr _ e => piFree e
  | _ => true

/-- Some leaf of the expression is a `Variable` bound in the environment or an
`Address` resolvable in the patch table.  Claim C8 says `evaluate` leaves no
such leaf behind. -/
def hasBoundLeaf (environment : EvaluationEnvironment C)
    (patchValues : Option (PatchValues C)) : Expression C → Bool
  | .var identifier => (List.lookup identifier environment).isSome
  | .address m => (resolveAddress patchValues m).isSome
  | .number _ => false
  | .piConstant => false
  | .functionCall _ e => hasBoundLeaf environment patchValues e
  | .infixExpr l _ r =>
    hasBoundLeaf environment patchValues l || hasBoundLeaf environment patchValues r
  | .prefixExpr _ e => hasBoundLeaf environment patchValues e

/-- Concrete carrier for witnesses: complex numbers with rational components.
Floating-point `Complex64` is not modelled; the structural claims proved below
hold for every carrier, and this executable instance lets witnesses compute. -/
abbrev CQ : Type := ℚ × ℚ

/-- Executable stand-in for the `Complex64` operations.  Field arithmetic is
exact complex arithmetic over ℚ (division by zero yields `0`, as ℚ division
does); `powc` and the transcendental functions have no rational counterpart and
are given fixed placeholder values — no claim below depends on their values,
only on both engines calling the same functions. -/
def cqOps : ComplexOps CQ where
  add a b := (a.1 + b.1, a.2 + b.2)
  sub a b := (a.1 - b.1, a.2 - b.2)
  mul a b := (a.1 * b.1 - a.2 * b.2, a.1 * b.2 + a.2 * b.1)
  div a b :=
    ((a.1 * b.1 + a.2 * b.2) / (b.1 * b.1 + b.2 * b.2),
     (a.2 * b.1 - a.1 * b.2) / (b.1 * b.1 + b.2 * b.2))
  pow a _ := a
  neg a := (-a.1, -a.2)
  sin a := a
  cos a := a
  exp a := a
  sqrt a := a
  iUnit := (0, 1)
  pi := (355 / 113, 0)
  zero := (0, 0)
  one := (1, 0)

/-! ### Execution dependency graph engine

Embedding of `quil-rs/src/stats/execution_graph.rs`.  The `Instruction` type
and the capabilities `get_qubits` / `role_for_instruction` live in
`quil-rs/src/instruction`, which is not part of this snapshot; they are
modelled from the spec (§3, §6): instructions relevant here are `Gate` (with a
qubit list), `Pragma`, `Jump`/`JumpWhen`/`JumpUnless`, and an abstract
constructor covering every other variant, carrying its classification role and
qubit set.  `Q` abstracts the `Qubit` type (witnesses use `Nat`). -/

/-- Mirrors `InstructionRole` from `quil-rs/src/instruction`. -/
inductive InstructionRole where
  | classicalCompute
  | controlFlow
  | programComposition
  | rfControl
deriving DecidableEq, Repr

/-- The fields of `Gate` relevant to the graph engine: its qubit list
(`gate.qubits`, used both for edge construction and for the multi-qubit test
`gate.qubits.len() > 1`). -/
structure GateData (Q : Type) where
  qubits : List Q
deriving DecidableEq, Repr

/-- Modelled from the spec: the instruction variants the graph engine
distinguishes.  `other role qubits` abstracts every variant that is not a
`Gate`, `Pragma`, or jump, recording its classification and qubit usage. -/
inductive Instruction (Q : Type) where
  | gate (g : GateData Q)
  | pragma
  | jump
  | jumpWhen
  | jumpUnless
  | other (role : InstructionRole) (qubits : List Q)
deriving DecidableEq, Repr

instance {Q : Type} : Inhabited (Instruction Q) := ⟨.pragma⟩

variable {Q : Type} [DecidableEq Q]

/-- Modelled from the spec: `InstructionHandler::role_for_instruction` — a pure
classification; `Gate` is `ProgramComposition`, `Pragma` is
`ClassicalCompute`, the jumps are `ControlFlow`. -/
def roleForInstruction : Instruction Q → InstructionRole
  | .gate _ => .programComposition
  | .pragma => .classicalCompute
  | .jump => .controlFlow
  | .jumpWhen => .controlFlow
  | .jumpUnless => .controlFlow
  | .other role _ => role

/-- Modelled from the spec: `Instruction::get_qubits` — "the set of qubits it
touches (possibly empty)"; deduplicated since the source returns a set. -/
def Instruction.getQubits : Instruction Q → List Q
  | .gate g => g.qubits.dedup
  | .pragma => []
  | .jump => []
  | .jumpWhen => []
  | .jumpUnless => []
  | .other _ qubits => qubits.dedup

/-- Mirrors `stats::execution_graph::Error`. -/
inductive GraphError (Q : Type) where
  | unsupportedInstruction (instruction : Instruction Q)
deriving DecidableEq, Repr

/-- Mirrors `ExecutionGraph { graph: DiGraph<Instruction, ()> }`: node `i` owns
`nodes[i]` (petgraph indices are insertion-ordered); an edge `(a, b, q)` is the
directed edge `a → b` inserted by `graph.add_edge(last_instruction, node, ())`,
with the loop variable `q` recorded as ghost data so the per-qubit sparsity
invariant can be stated — no query below reads it. -/
structure ExecutionGraph (Q : Type) where
  nodes : List (Instruction Q)
  edges : List (Nat × Nat × Q)
deriving DecidableEq, Repr

/-- The rejection test of `ExecutionGraph::new` (`execution_graph.rs:27-45`),
written as the same match on the instruction's role. -/
def rejectsInstruction (i : Instruction Q) : Bool :=
  match roleForInstruction i with
  | .classicalCompute =>
    match i with
    | .pragma => true
    | _ => false
  | .controlFlow =>
    match i with
    | .jump => true
    | .jumpWhen => true
    | .jumpUnless => true
    | _ => false
  | .programComposition => false
  | .rfControl => true

/-- The inner `for qubit in qubits` loop of `ExecutionGraph::new`
(`execution_graph.rs:51-55`): for each qubit, `HashMap::insert` returns the
previous node for that qubit (if any), which becomes an edge source; the map is
modelled as a function `Q → Option Nat`. -/
def addQubitEdges (qubits : List Q) (last : Q → Option Nat) (node : Nat) :
    (Q → Option Nat) × List (Nat × Nat × Q) :=
  match qubits with
  | [] => (last, [])
  | q :: qs =>
    let updated : Q → Option Nat := fun q' => if q' = q then some node else last q'
    let rest := addQubitEdges qs updated node
    match last q with
    | some lastInstruction => (rest.1, (lastInstruction, node, q) :: rest.2)
    | none => rest

/-- The instruction loop of `ExecutionGraph::new` (`execution_graph.rs:26-56`)
carrying the `last_instruction_for_qubit` map and the graph built so far. -/
def newGo (instructions : List (Instruction Q)) (last : Q → Option Nat)
    (nodes : List (Instruction Q)) (edges : List (Nat × Nat × Q)) :
    Except (GraphError Q) (ExecutionGraph Q) :=
  match instructions with
  | [] => .ok ⟨nodes, edges⟩
  | instruction :: rest =>
    if rejectsInstruction instruction then
      .error (.unsupportedInstruction instruction)
    else
      let step := addQubitEdges instruction.getQubits last nodes.length
      newGo rest step.1 (nodes ++ [instruction]) (edges ++ step.2)

/-- Mirrors `ExecutionGraph::new` (`execution_graph.rs:21-59`). -/
def ExecutionGraph.new (instructions : List (Instruction Q)) :
    Except (GraphError Q) (ExecutionGraph Q) :=
  newGo instructions (fun _ => none) [] []

/-- `graph.neighbors_directed(node, Direction::Outgoing)`: targets of the edges
leaving `n`. -/
def ExecutionGraph.successors (g : ExecutionGraph Q) (n : Nat) : List Nat :=
  (g.edges.filter fun e => e.1 = n).map fun e => e.2.1

/-- `graph.externals(Direction::Incoming)`: the nodes with no incoming edge, in
node-index order. -/
def ExecutionGraph.roots (g : ExecutionGraph Q) : List Nat :=
  (List.range g.nodes.length).filter fun n => g.edges.all fun e => e.2.1 ≠ n

/-- Mirrors `ExecutionGraph::path_fold` (`execution_graph.rs:104-133`)
restricted to infallible folding functions (both callers' callbacks are
`Infallible`, and the source marks error propagation from them unreachable).
The explicit work stack of the source is rendered as structural recursion:
visiting a node applies `f`, a leaf yields its accumulator, a branch explores
every successor with the same pre-branch accumulator.  `fuel` bounds the
recursion depth; `g.nodes.length` suffices for every graph `new` builds, since
its edges strictly increase node indices. -/
def ExecutionGraph.pathFoldFrom {T : Type} (g : ExecutionGraph Q)
    (f : T → Instruction Q → T) : Nat → T → Nat → List T
  | 0, _, _ => []
  | fuel + 1, acc, n =>
    let value := f acc (g.nodes.getD n default)
    let succ := g.successors n
    if succ.isEmpty then [value]
    else (succ.map (g.pathFoldFrom f fuel value)).flatten

/-- The outer driver of `path_fold`: the stack starts as
`[(initial_value, roots)]`, so an empty root set yields `[initial_value]` and
otherwise each root is explored independently. -/
def ExecutionGraph.pathFold {T : Type} (g : ExecutionGraph Q)
    (initialValue : T) (f : T → Instruction Q → T) : List T :=
  if g.roots.isEmpty then [initialValue]
  else (g.roots.map (g.pathFoldFrom f g.nodes.length initialValue)).flatten

/-- The folding step of `gate_depth` (`execution_graph.rs:140-146`). -/
def gateStep : Nat → Instruction Q → Nat
  | depth, .gate _ => depth + 1
  | depth, _ => depth

/-- The folding step of `multi_qubit_gate_depth` (`execution_graph.rs:161-168`):
count gates whose (raw) qubit list has more than one element. -/
def multiQubitGateStep : Nat → Instruction Q → Nat
  | depth, .gate g => if g.qubits.length > 1 then depth + 1 else depth
  | depth, _ => depth

/-- Mirrors `ExecutionGraph::gate_depth` (`execution_graph.rs:136-154`):
maximum terminal accumulator over all paths, `0` by default. -/
def ExecutionGraph.gate_depth (g : ExecutionGraph Q) : Nat :=
  ((g.pathFold 0 gateStep).max?).getD 0

/-- Mirrors `ExecutionGraph::multi_qubit_gate_depth`
(`execution_graph.rs:157-176`). -/
def ExecutionGraph.multi_qubit_gate_depth (g : ExecutionGraph Q) : Nat :=
  ((g.pathFold 0 multiQubitGateStep).max?).getD 0

/-! ### Specification-side path vocabulary for claims C1 and C7. -/

/-- There is a recorded edge from `a` to `b` (ignoring the ghost qubit). -/
def ExecutionGraph.HasEdge (g : ExecutionGraph Q) (a b : Nat) : Prop :=
  ∃ q, (a, b, q) ∈ g.edges

instance (g : ExecutionGraph Q) (a b : Nat) : Decidable (g.HasEdge a b) := by
  unfold ExecutionGraph.HasEdge
  exact decidable_of_iff (∃ e ∈ g.edges, e.1 = a ∧ e.2.1 = b)
    ⟨fun ⟨e, he, h1, h2⟩ => ⟨e.2.2, by rcases e with ⟨x, y, q⟩; cases h1; cases h2; exact he⟩,
     fun ⟨q, hq⟩ => ⟨(a, b, q), hq, rfl, rfl⟩⟩

/-- A root: a valid node with no incoming edge. -/
def ExecutionGraph.IsRoot (g : ExecutionGraph Q) (n : Nat) : Prop :=
  n < g.nodes.length ∧ ∀ e ∈ g.edges, e.2.1 ≠ n

/-- A leaf: a valid node with no outgoing edge. -/
def ExecutionGraph.IsLeaf (g : ExecutionGraph Q) (n : Nat) : Prop :=
  n < g.nodes.length ∧ ∀ e ∈ g.edges, e.1 ≠ n

/-- A path suffix: starts at `n`, follows edges, ends at a leaf. -/
inductive ExecutionGraph.TailPath (g : ExecutionGraph Q) : Nat → List Nat → Prop where
  | leaf {n : Nat} : g.IsLeaf n → g.TailPath n [n]
  | cons {n m : Nat} {p : List Nat} :
      g.HasEdge n m → g.TailPath m p → g.TailPath n (n :: p)

/-- A complete root-to-leaf path, as the spec describes it: nonempty, edges
link consecutive nodes, the first node has no incoming edge, the last has no
outgoing edge. -/
def ExecutionGraph.IsPath (g : ExecutionGraph Q) (p : List Nat) : Prop :=
  ∃ h : p ≠ [], (∀ n ∈ p, n < g.nodes.length) ∧ List.Chain' g.HasEdge p ∧
    g.IsRoot (p.head h) ∧ g.IsLeaf (p.getLast h)

/-- Discriminator for the `Gate` variant. -/
def isGateInstr : Instruction Q → Bool
  | .gate _ => true
  | _ => false

/-- Discriminator for a `Gate` whose (raw) qubit list has more than one
element. -/
def isMultiQubitGateInstr : Instruction Q → Bool
  | .gate g => decide (g.qubits.length > 1)
  | _ => false

/-- Number of `Gate` instructions along a list of node indices. -/
def ExecutionGraph.gateCount (g : ExecutionGraph Q) (p : List Nat) : Nat :=
  p.countP fun n => isGateInstr (g.nodes.getD n default)

/-- Number of multi-qubit `Gate` instructions along a list of node indices. -/
def ExecutionGraph.multiQubitGateCount (g : ExecutionGraph Q) (p : List Nat) : Nat :=
  p.countP fun n => isMultiQubitGateInstr (g.nodes.getD n default)

/-- Edges strictly increase node indices and stay in range — the structural
soundness every graph built by `new` enjoys. -/
def ExecutionGraph.EdgesSound (g : ExecutionGraph Q) : Prop :=
  ∀ e ∈ g.edges, e.1 < e.2.1 ∧ e.2.1 < g.nodes.length

/-- Claim C7's per-edge property: the edge `(a, b, q)` goes forward in program
order, both endpoints touch `q`, and no instruction strictly between them
does — `a` is the nearest prior instruction touching the common qubit `q`. -/
def EdgeOK (nodes : List (Instruction Q)) (e : Nat × Nat × Q) : Prop :=
  e.1 < e.2.1 ∧ e.2.1 < nodes.length ∧
    e.2.2 ∈ (nodes.getD e.2.1 default).getQubits ∧
    e.2.2 ∈ (nodes.getD e.1 default).getQubits ∧
    ∀ k, e.1 < k → k < e.2.1 → e.2.2 ∉ (nodes.getD k default).getQubits

/-- The edge is an incoming edge of node `b` attributable to qubit `q`. -/
def edgeInto [DecidableEq Q] (b : Nat) (q : Q) (e : Nat × Nat × Q) : Bool :=
  decide (e.2.1 = b ∧ e.2.2 = q)

/-- Loop invariant for `last_instruction_for_qubit`: every entry points at the
most recent prior instruction touching that qubit. -/
def MapOK (last : Q → Option Nat) (nodes : List (Instruction Q)) : Prop :=
  ∀ q n, last q = some n → n < nodes.length ∧
    q ∈ (nodes.getD n default).getQubits ∧
    ∀ k, n < k → k < nodes.length → q ∉ (nodes.getD k default).getQubits

instance {ε α : Type} [DecidableEq ε] [DecidableEq α] : DecidableEq (Except ε α)
  | .ok a, .ok b => decidable_of_iff (a = b) (by simp)
  | .ok _, .error _ => isFalse (by simp)
  | .error _, .ok _ => isFalse (by simp)
  | .error a, .error b => decidable_of_iff (a = b) (by simp)

/-- Measure of an optional affine component: `a` counts together with the
infix node that attaches it. -/
def optMeasure {C : Type} : Option (Expression C) → Nat
  | some a => simpMeasure a + 1
  | none => 0

/-- Claim C2's rejection set, stated as the claim states it: the instruction
is a `Pragma`, a `Jump`/`JumpWhen`/`JumpUnless`, or classified `RFControl`. -/
def UnsupportedInstruction (i : Instruction Q) : Prop :=
  i = .pragma ∨ i = .jump ∨ i = .jumpWhen ∨ i = .jumpUnless ∨
    roleForInstruction i = .rfControl

/-- The expression evaluates to the value `v`: `evaluate` reduces it to
`Number v`, or to `PiConstant` with `v` the pi constant — exactly the
successful outcomes of `evaluate_to_complex`. -/
def EvalsTo (ops : ComplexOps C) (e : Expression C) (environment : EvaluationEnvironment C)
    (patchValues : Option (PatchValues C)) (v : C) : Prop :=
  evaluate ops e environment patchValues = .number v ∨
    (evaluate ops e environment patchValues = .piConstant ∧ v = ops.pi)

/-- The diamond test program `CNOT 0 1; X 0; H 1; CNOT 1 0` (§8 of the spec),
used as a concrete witness input. -/
def diamondProgram : List (Instruction Nat) :=
  [.gate ⟨[0, 1]⟩, .gate ⟨[0]⟩, .gate ⟨[1]⟩, .gate ⟨[1, 0]⟩]

/-- The graph `new` builds for `diamondProgram`. -/
def diamondGraph : ExecutionGraph Nat :=
  ⟨[.gate ⟨[0, 1]⟩, .gate ⟨[0]⟩, .gate ⟨[1]⟩, .gate ⟨[1, 0]⟩],
    [(0, 1, 0), (0, 2, 1), (2, 3, 1), (1, 3, 0)]⟩

/-! ## Theorems -/

/-- The source's rejection test accepts exactly the claim's rejection set. -/
theorem rejectsInstruction_iff (i : Instruction Q) :
    rejectsInstruction i = true ↔ UnsupportedInstruction i := by
  cases i with
  | other role qubits =>
    cases role <;> simp [rejectsInstruction, roleForInstruction, UnsupportedInstruction]
  | _ => simp [rejectsInstruction, roleForInstruction, UnsupportedInstruction]

/-- An `Err` from the instruction loop carries a rejected instruction of the
remaining input. -/
theorem newGo_error (l : List (Instruction Q)) (last : Q → Option Nat)
    (nodes : List (Instruction Q)) (edges : List (Nat × Nat × Q)) (i : Instruction Q)
    (h : newGo l last nodes edges = .error (.unsupportedInstruction i)) :
    i ∈ l ∧ rejectsInstruction i = true := by
  induction l generalizing last nodes edges with
  | nil => exact absurd h (by simp [newGo])
  | cons j rest ih =>
    rw [newGo] at h
    by_cases hj : rejectsInstruction j = true
    · rw [if_pos hj] at h
      injection h with h
      injection h with h
      subst h
      exact ⟨List.mem_cons_self .., hj⟩
    · rw [if_neg hj] at h
      obtain ⟨hm, hr⟩ := ih _ _ _ h
      exact ⟨List.mem_cons_of_mem _ hm, hr⟩

/-- If no instruction is rejected, the instruction loop succeeds. -/
theorem newGo_ok (l : List (Instruction Q)) (last : Q → Option Nat)
    (nodes : List (Instruction Q)) (edges : List (Nat × Nat × Q))
    (h : ∀ i ∈ l, rejectsInstruction i = false) :
    ∃ g, newGo l last nodes edges = .ok g := by
  induction l generalizing last nodes edges with
  | nil => exact ⟨⟨nodes, edges⟩, rfl⟩
  | cons j rest ih =>
    rw [newGo]
    rw [if_neg (by simp [h j (List.mem_cons_self ..)])]
    exact ih _ _ _ fun i hi => h i (List.mem_cons_of_mem _ hi)

/-- On success, every input instruction was accepted. -/
theorem newGo_ok_forall (l : List (Instruction Q)) (last : Q → Option Nat)
    (nodes : List (Instruction Q)) (edges : List (Nat × Nat × Q)) (g : ExecutionGraph Q)
    (h : newGo l last nodes edges = .ok g) :
    ∀ i ∈ l, rejectsInstruction i = false := by
  induction l generalizing last nodes edges with
  | nil => simp
  | cons j rest ih =>
    rw [newGo] at h
    by_cases hj : rejectsInstruction j = true
    · rw [if_pos hj] at h
      exact absurd h (by simp)
    · rw [if_neg hj] at h
      intro i hi
      rcases List.mem_cons.mp hi with rfl | hi
      · exact Bool.not_eq_true _ |>.mp hj
      · exact ih _ _ _ h i hi

/-- C2: `ExecutionGraph::new` fails with `UnsupportedInstruction`, carrying an
offending instruction, if and only if the input contains a `Pragma`, a
`Jump`/`JumpWhen`/`JumpUnless`, or an instruction classified `RFControl`; the
carried instruction is such an offender from the input, and when the input
contains no such instruction, construction succeeds.  (`role_for_instruction`
and `get_qubits` are modelled from the spec.) -/
theorem claim_C2 (l : List (Instruction Q)) :
    ((∃ i, ExecutionGraph.new l = .error (.unsupportedInstruction i)) ↔
      ∃ i ∈ l, UnsupportedInstruction i) ∧
    (∀ i, ExecutionGraph.new l = .error (.unsupportedInstruction i) →
      i ∈ l ∧ UnsupportedInstruction i) ∧
    ((∀ i ∈ l, ¬ UnsupportedInstruction i) → ∃ g, ExecutionGraph.new l = .ok g) := by
  have hcarry : ∀ i, ExecutionGraph.new l = .error (.unsupportedInstruction i) →
      i ∈ l ∧ UnsupportedInstruction i := by
    intro i h
    obtain ⟨hm, hr⟩ := newGo_error l _ _ _ i h
    exact ⟨hm, (rejectsInstruction_iff i).mp hr⟩
  have hok : (∀ i ∈ l, ¬ UnsupportedInstruction i) → ∃ g, ExecutionGraph.new l = .ok g := by
    intro h
    exact newGo_ok l _ _ _ fun i hi => by
      have := h i hi
      rcases hb : rejectsInstruction i with _ | _
      · rfl
      · exact absurd ((rejectsInstruction_iff i).mp hb) this
  refine ⟨⟨fun ⟨i, hi⟩ => ⟨i, (hcarry i hi).1, (hcarry i hi).2⟩, ?_⟩, hcarry, hok⟩
  intro ⟨i, hi, hu⟩
  rcases he : ExecutionGraph.new l with e | g
  · cases e with
    | unsupportedInstruction j => exact ⟨j, rfl⟩
  · have hall := newGo_ok_forall l _ _ _ g he i hi
    rw [(rejectsInstruction_iff i).mpr hu] at hall
    exact absurd hall (by simp)

/-- The qubit list the model exposes is duplicate-free (the source returns a
set). -/
theorem getQubits_nodup (i : Instruction Q) : i.getQubits.Nodup := by
  cases i <;> simp only [Instruction.getQubits] <;>
    first
    | exact List.nodup_dedup _
    | exact List.nodup_nil

/-- The map after the qubit loop: qubits of the new node point at it, all
others are untouched. -/
theorem addQubitEdges_map (qs : List Q) (last : Q → Option Nat) (n : Nat) (q : Q) :
    (addQubitEdges qs last n).1 q = if q ∈ qs then some n else last q := by
  induction qs generalizing last with
  | nil => simp [addQubitEdges]
  | cons q0 qs ih =>
    simp only [addQubitEdges]
    rcases hl : last q0 with _ | prev <;>
    · simp only []
      rw [ih]
      by_cases h1 : q ∈ qs <;> by_cases h2 : q = q0 <;>
        simp [h1, h2, List.mem_cons]

/-- Membership in the edges produced by one qubit loop (for a duplicate-free
qubit list): exactly one edge per qubit that had a previous toucher. -/
theorem addQubitEdges_mem (a b : Nat) (q : Q) :
    ∀ (qs : List Q) (last : Q → Option Nat) (n : Nat), qs.Nodup →
      ((a, b, q) ∈ (addQubitEdges qs last n).2 ↔
        (q ∈ qs ∧ b = n ∧ last q = some a)) := by
  intro qs
  induction qs with
  | nil => intro last n _; simp [addQubitEdges]
  | cons q0 qs ih =>
    intro last n hnd
    obtain ⟨h0, hnd'⟩ := List.nodup_cons.mp hnd
    simp only [addQubitEdges]
    rcases hl : last q0 with _ | prev
    · simp only []
      rw [ih _ n hnd']
      constructor
      · rintro ⟨hq, hb, hupd⟩
        have hqq : q ≠ q0 := fun h => h0 (h ▸ hq)
        rw [if_neg hqq] at hupd
        exact ⟨List.mem_cons_of_mem _ hq, hb, hupd⟩
      · rintro ⟨hq, hb, hlast⟩
        rcases List.mem_cons.mp hq with rfl | hq
        · rw [hl] at hlast; exact absurd hlast (by simp)
        · have hqq : q ≠ q0 := fun h => h0 (h ▸ hq)
          exact ⟨hq, hb, by rw [if_neg hqq]; exact hlast⟩
    · simp only [List.mem_cons]
      rw [ih _ n hnd']
      constructor
      · rintro (heq | ⟨hq, hb, hupd⟩)
        · injection heq with h1 h2
          injection h2 with h2 h3
          subst h1 h2 h3
          exact ⟨Or.inl rfl, rfl, hl⟩
        · have hqq : q ≠ q0 := fun h => h0 (h ▸ hq)
          rw [if_neg hqq] at hupd
          exact ⟨Or.inr hq, hb, hupd⟩
      · rintro ⟨hq, hb, hlast⟩
        rcases hq with rfl | hq
        · rw [hl] at hlast
          injection hlast with hlast
          subst hb
          exact Or.inl (by rw [hlast])
        · have hqq : q ≠ q0 := fun h => h0 (h ▸ hq)
          exact Or.inr ⟨hq, hb, by rw [if_neg hqq]; exact hlast⟩

/-- One qubit loop adds at most one edge attributable to any `(target, qubit)`
pair. -/
theorem addQubitEdges_countP (b : Nat) (q : Q) :
    ∀ (qs : List Q) (last : Q → Option Nat) (n : Nat), qs.Nodup →
      (addQubitEdges qs last n).2.countP (edgeInto b q) ≤ 1 := by
  intro qs
  induction qs with
  | nil => intro last n _; simp [addQubitEdges]
  | cons q0 qs ih =>
    intro last n hnd
    obtain ⟨h0, hnd'⟩ := List.nodup_cons.mp hnd
    simp only [addQubitEdges]
    rcases hl : last q0 with _ | prev
    · exact ih _ n hnd'
    · simp only [List.countP_cons]
      by_cases hm : edgeInto b q (prev, n, q0) = true
      · have hq0 : q = q0 := by
          have := of_decide_eq_true hm
          exact this.2.symm
        have hzero : (addQubitEdges qs (fun q' => if q' = q0 then some n else last q') n).2.countP
            (edgeInto b q) = 0 := by
          rw [List.countP_eq_zero]
          intro e he
          obtain ⟨a', b', q'⟩ := e
          rw [addQubitEdges_mem a' b' q' qs _ n hnd'] at he
          intro habs
          have := of_decide_eq_true habs
          simp only at this
          rw [hq0] at this
          exact h0 (this.2 ▸ he.1)
        rw [hzero, hm]
        simp
      · rw [if_neg (by simpa using hm)]
        simpa using ih _ n hnd'

/-- `EdgeOK` survives appending a node. -/
theorem EdgeOK_append (nodes : List (Instruction Q)) (i : Instruction Q)
    (e : Nat × Nat × Q) (h : EdgeOK nodes e) : EdgeOK (nodes ++ [i]) e := by
  obtain ⟨h1, h2, h3, h4, h5⟩ := h
  refine ⟨h1, by simp; omega, ?_, ?_, ?_⟩
  · rw [List.getD_append _ _ _ _ h2]; exact h3
  · rw [List.getD_append _ _ _ _ (lt_trans h1 h2)]; exact h4
  · intro k hk1 hk2
    rw [List.getD_append _ _ _ _ (lt_trans hk2 h2)]
    exact h5 k hk1 hk2

/-- The freshly appended node is what `getD` finds at the old length. -/
theorem getD_concat_length (nodes : List (Instruction Q)) (i : Instruction Q) :
    (nodes ++ [i]).getD nodes.length default = i := by
  simp [List.getD_eq_getElem?_getD, List.getElem?_concat_length]

/-- The instruction loop preserves the graph invariants: every recorded edge
links the nearest prior toucher of its qubit, and targets at most one incoming
edge per qubit. -/
theorem newGo_graph_inv :
    ∀ (l : List (Instruction Q)) (last : Q → Option Nat) (nodes : List (Instruction Q))
      (edges : List (Nat × Nat × Q)) (g : ExecutionGraph Q),
      MapOK last nodes →
      (∀ e ∈ edges, EdgeOK nodes e) →
      (∀ b q, edges.countP (edgeInto b q) ≤ 1) →
      newGo l last nodes edges = .ok g →
      (∀ e ∈ g.edges, EdgeOK g.nodes e) ∧ (∀ b q, g.edges.countP (edgeInto b q) ≤ 1) := by
  intro l
  induction l with
  | nil =>
    intro last nodes edges g _ hE hC h
    rw [newGo] at h
    injection h with h
    subst h
    exact ⟨hE, hC⟩
  | cons i rest ih =>
    intro last nodes edges g hM hE hC h
    rw [newGo] at h
    by_cases hr : rejectsInstruction i = true
    · rw [if_pos hr] at h
      exact absurd h (by simp)
    · rw [if_neg hr] at h
      refine ih _ _ _ g ?_ ?_ ?_ h
      · -- MapOK is preserved
        intro q m hm
        rw [addQubitEdges_map] at hm
        by_cases hq : q ∈ i.getQubits
        · rw [if_pos hq] at hm
          injection hm with hm
          subst hm
          refine ⟨by simp, ?_, ?_⟩
          · rw [getD_concat_length]; exact hq
          · intro k hk1 hk2
            simp at hk2
            omega
        · rw [if_neg hq] at hm
          obtain ⟨h1, h2, h3⟩ := hM q m hm
          refine ⟨by simp; omega, ?_, ?_⟩
          · rw [List.getD_append _ _ _ _ h1]; exact h2
          · intro k hk1 hk2
            simp at hk2
            rcases Nat.lt_or_ge k nodes.length with hk | hk
            · rw [List.getD_append _ _ _ _ hk]; exact h3 k hk1 hk
            · have hkeq : k = nodes.length := by omega
              subst hkeq
              rw [getD_concat_length]
              exact hq
      · -- EdgeOK is preserved and holds for the new edges
        intro e he
        rcases List.mem_append.mp he with he | he
        · exact EdgeOK_append nodes i e (hE e he)
        · obtain ⟨a, b, q⟩ := e
          rw [addQubitEdges_mem a b q _ last nodes.length (getQubits_nodup i)] at he
          obtain ⟨hq, hb, hlast⟩ := he
          subst hb
          obtain ⟨h1, h2, h3⟩ := hM q a hlast
          refine ⟨h1, by simp, ?_, ?_, ?_⟩
          · rw [getD_concat_length]; exact hq
          · rw [List.getD_append _ _ _ _ h1]; exact h2
          · intro k hk1 hk2
            rw [List.getD_append _ _ _ _ hk2]
            exact h3 k hk1 hk2
      · -- the incoming-edge count per (target, qubit) stays at most one
        intro b q
        rw [List.countP_append]
        by_cases hb : b = nodes.length
        · subst hb
          have hzero : edges.countP (edgeInto nodes.length q) = 0 := by
            rw [List.countP_eq_zero]
            intro e he habs
            have := (of_decide_eq_true habs).1
            have h2 := (hE e he).2.1
            omega
          rw [hzero]
          simpa using addQubitEdges_countP nodes.length q _ last nodes.length (getQubits_nodup i)
        · have hzero : (addQubitEdges i.getQubits last nodes.length).2.countP (edgeInto b q)
              = 0 := by
            rw [List.countP_eq_zero]
            intro e he habs
            obtain ⟨a', b', q'⟩ := e
            rw [addQubitEdges_mem a' b' q' _ last nodes.length (getQubits_nodup i)] at he
            have := (of_decide_eq_true habs).1
            simp only at this
            exact hb (this ▸ he.2.1)
          rw [hzero]
          simpa using hC b q

/-- Every graph `new` builds has strictly increasing, in-range edges. -/
theorem new_edgesSound (l : List (Instruction Q)) (g : ExecutionGraph Q)
    (h : ExecutionGraph.new l = .ok g) : g.EdgesSound := by
  intro e he
  have hinv := newGo_graph_inv l _ _ _ g (fun q m hm => absurd hm (by simp))
    (fun e he => absurd he (by simp)) (fun b q => by simp) h
  exact ⟨(hinv.1 e he).1, (hinv.1 e he).2.1⟩

/-- C7: in every graph `ExecutionGraph::new` builds, each edge runs from an
instruction strictly earlier in program order to a strictly later one (so the
graph is acyclic), the two endpoints share the qubit that induced the edge,
no instruction strictly between them touches that qubit (nearest-prior
linking), and every node has at most one incoming edge attributable to any
given qubit.  (`get_qubits` is modelled from the spec as a set of qubits.) -/
theorem claim_C7 (l : List (Instruction Q)) (g : ExecutionGraph Q)
    (h : ExecutionGraph.new l = .ok g) :
    (∀ e ∈ g.edges, EdgeOK g.nodes e) ∧
      (∀ b q, g.edges.countP (edgeInto b q) ≤ 1) :=
  newGo_graph_inv l _ _ _ g (fun q m hm => absurd hm (by simp))
    (fun e he => absurd he (by simp)) (fun b q => by simp) h

/-- C7 witness: the theorem applied to `CNOT 0 1; X 0`. -/
theorem claim_C7_witness :
    ExecutionGraph.new (Q := Nat) [.gate ⟨[0, 1]⟩, .gate ⟨[0]⟩] =
        .ok ⟨[.gate ⟨[0, 1]⟩, .gate ⟨[0]⟩], [(0, 1, 0)]⟩ ∧
      ((∀ e ∈ ([(0, 1, 0)] : List (Nat × Nat × Nat)),
          EdgeOK [Instruction.gate ⟨[0, 1]⟩, .gate ⟨[0]⟩] e) ∧
        (∀ b q, ([(0, 1, 0)] : List (Nat × Nat × Nat)).countP (edgeInto b q) ≤ 1)) :=
  ⟨by decide,
    claim_C7 (Q := Nat) [.gate ⟨[0, 1]⟩, .gate ⟨[0]⟩]
      ⟨[.gate ⟨[0, 1]⟩, .gate ⟨[0]⟩], [(0, 1, 0)]⟩ (by decide)⟩

/-- C2 witness: the theorem applied to the single-`Pragma` program. -/
theorem claim_C2_witness :
    ExecutionGraph.new (Q := Nat) [.pragma] = .error (.unsupportedInstruction .pragma) ∧
      (Instruction.pragma ∈ ([.pragma] : List (Instruction Nat)) ∧
        UnsupportedInstruction (Instruction.pragma : Instruction Nat)) :=
  ⟨by decide, (claim_C2 (Q := Nat) [.pragma]).2.1 .pragma (by decide)⟩

/-- Bound-leaf content of an evaluated `FunctionCall` is that of its evaluated
operand: folding to `Number` erases it, reconstruction keeps it. -/
theorem hasBoundLeaf_evaluate_functionCall (ops : ComplexOps C) (f : ExpressionFunction)
    (a : Expression C) (env : EvaluationEnvironment C) (pv : Option (PatchValues C)) :
    hasBoundLeaf env pv (evaluate ops (.functionCall f a) env pv) =
      hasBoundLeaf env pv (evaluate ops a env pv) := by
  cases he : evaluate ops a env pv <;> simp [evaluate, he, hasBoundLeaf]

/-- Bound-leaf content of an evaluated `Infix` is the disjunction of its
evaluated sides'. -/
theorem hasBoundLeaf_evaluate_infixExpr (ops : ComplexOps C) (l : Expression C)
    (operator : InfixOperator) (r : Expression C)
    (env : EvaluationEnvironment C) (pv : Option (PatchValues C)) :
    hasBoundLeaf env pv (evaluate ops (.infixExpr l operator r) env pv) =
      (hasBoundLeaf env pv (evaluate ops l env pv) ||
        hasBoundLeaf env pv (evaluate ops r env pv)) := by
  cases hel : evaluate ops l env pv <;> cases her : evaluate ops r env pv <;>
    simp [evaluate, hel, her, hasBoundLeaf]

/-- C3 (amended; the claim's fourth combination fails): when `evaluate` hits an
`Infix` node it evaluates both sides first; if the evaluated sides are
`Number`/`Number`, `PiConstant`/`Number`, or `Number`/`PiConstant`, the
operator is applied — substituting `pi`'s double value — and a `Number` is
returned; in every other case, including `PiConstant` on both sides, the
`Infix` is reconstructed around the partially-evaluated sides. -/
theorem claim_C3 (ops : ComplexOps C) (l r : Expression C) (operator : InfixOperator)
    (env : EvaluationEnvironment C) (pv : Option (PatchValues C)) :
    (∀ a b, evaluate ops l env pv = .number a → evaluate ops r env pv = .number b →
      evaluate ops (.infixExpr l operator r) env pv =
        .number (calculateInfixOp ops a operator b)) ∧
    (∀ b, evaluate ops l env pv = .piConstant → evaluate ops r env pv = .number b →
      evaluate ops (.infixExpr l operator r) env pv =
        .number (calculateInfixOp ops ops.pi operator b)) ∧
    (∀ a, evaluate ops l env pv = .number a → evaluate ops r env pv = .piConstant →
      evaluate ops (.infixExpr l operator r) env pv =
        .number (calculateInfixOp ops a operator ops.pi)) ∧
    (evaluate ops l env pv = .piConstant → evaluate ops r env pv = .piConstant →
      evaluate ops (.infixExpr l operator r) env pv =
        .infixExpr .piConstant operator .piConstant) ∧
    ((isNumberOrPi (evaluate ops l env pv) = false ∨
        isNumberOrPi (evaluate ops r env pv) = false) →
      evaluate ops (.infixExpr l operator r) env pv =
        .infixExpr (evaluate ops l env pv) operator (evaluate ops r env pv)) := by
  refine ⟨?_, ?_, ?_, ?_, ?_⟩
  · intro a b ha hb; simp [evaluate, ha, hb]
  · intro b ha hb; simp [evaluate, ha, hb]
  · intro a ha hb; simp [evaluate, ha, hb]
  · intro ha hb; simp [evaluate, ha, hb]
  · intro h
    show (match evaluate ops l env pv, evaluate ops r env pv with
      | .number valueLeft, .number valueRight =>
        Expression.number (calculateInfixOp ops valueLeft operator valueRight)
      | .piConstant, .number value => .number (calculateInfixOp ops ops.pi operator value)
      | .number value, .piConstant => .number (calculateInfixOp ops value operator ops.pi)
      | leftEvaluated, rightEvaluated =>
        Expression.infixExpr leftEvaluated operator rightEvaluated) = _
    rcases h with h | h <;>
      cases hl : evaluate ops l env pv <;> cases hr : evaluate ops r env pv <;>
        simp_all [isNumberOrPi]

/-- C3 counterexample: with `PiConstant` on both sides the source's match falls
through to reconstruction, so no `Number` is returned — `pi + pi` stays
symbolic. -/
theorem claim_C3_counterexample :
    evaluate (C := CQ) cqOps (.infixExpr .piConstant .plus .piConstant) [] none =
        .infixExpr .piConstant .plus .piConstant ∧
      isNumber (evaluate (C := CQ) cqOps (.infixExpr .piConstant .plus .piConstant) [] none) =
        false := by
  decide

/-- C3 witness: the amended theorem applied to `2 + 3`. -/
theorem claim_C3_witness :
    evaluate (C := CQ) cqOps (.number (2, 0)) [] none = .number (2, 0) ∧
      evaluate (C := CQ) cqOps (.number (3, 0)) [] none = .number (3, 0) ∧
      evaluate cqOps (.infixExpr (.number (2, 0)) .plus (.number (3, 0))) [] none =
        .number (calculateInfixOp cqOps (2, 0) .plus (3, 0)) :=
  ⟨by decide, by decide,
    (claim_C3 cqOps (.number (2, 0)) (.number (3, 0)) .plus [] none).1 (2, 0) (3, 0)
      (by decide) (by decide)⟩

/-- C4 (amended; "in no other case" fails): `evaluate_to_complex` returns
`Ok v` exactly when `evaluate` reduces the expression to `Number v` (or
`Ok pi` for `PiConstant`), and returns `Err(Incomplete)` exactly when the
evaluated expression is neither `Number` nor `PiConstant`.  A remaining
`Variable` or `Address` leaf forces the error, but the error can also occur
with every binding present, because `Prefix` operands are returned
unevaluated. -/
theorem claim_C4 (ops : ComplexOps C) (e : Expression C)
    (env : EvaluationEnvironment C) (pv : Option (PatchValues C)) :
    (∀ v, evaluate_to_complex ops e env pv = .ok v ↔
      (evaluate ops e env pv = .number v ∨
        (evaluate ops e env pv = .piConstant ∧ v = ops.pi))) ∧
    (evaluate_to_complex ops e env pv = .error .incomplete ↔
      isNumberOrPi (evaluate ops e env pv) = false) ∧
    (symbolFree (evaluate ops e env pv) = false →
      evaluate_to_complex ops e env pv = .error .incomplete) := by
  refine ⟨fun v => ?_, ?_, ?_⟩
  · simp only [evaluate_to_complex]
    cases h : evaluate ops e env pv <;> simp [eq_comm]
  · simp only [evaluate_to_complex]
    cases h : evaluate ops e env pv <;> simp [isNumberOrPi]
  · simp only [evaluate_to_complex]
    cases h : evaluate ops e env pv <;> simp [symbolFree]

/-- C4 counterexample: `-(1 + 1)` contains no variable and no address, yet
`evaluate_to_complex` fails with `Incomplete`, because the `Prefix` arm of
`evaluate` does not evaluate its operand. -/
theorem claim_C4_counterexample :
    evaluate_to_complex (C := CQ) cqOps
        (.prefixExpr .minus (.infixExpr (.number (1, 0)) .plus (.number (1, 0)))) [] none =
      .error .incomplete ∧
    symbolFree (C := CQ)
        (.prefixExpr .minus (.infixExpr (.number (1, 0)) .plus (.number (1, 0)))) = true := by
  decide

/-- C4 witness: the amended theorem applied to an unbound variable. -/
theorem claim_C4_witness :
    symbolFree (evaluate (C := CQ) cqOps (.var "y") [] none) = false ∧
      evaluate_to_complex (C := CQ) cqOps (.var "y") [] none = .error .incomplete :=
  ⟨by decide, (claim_C4 cqOps (.var "y") [] none).2.2 (by decide)⟩

/-- C8 (amended; substitution stops at `Prefix` nodes): for every expression
containing no `Prefix` operator, the tree `evaluate` returns contains no
`Variable` leaf bound in the environment and no `Address` leaf resolvable in
the patch table — such leaves are replaced by `Number` wherever they occur.
For expressions with `Prefix` nodes this fails, because the `Prefix` arm
returns its operand without evaluating it. -/
theorem claim_C8 (ops : ComplexOps C) (e : Expression C)
    (env : EvaluationEnvironment C) (pv : Option (PatchValues C))
    (h : prefixFree e = true) :
    hasBoundLeaf env pv (evaluate ops e env pv) = false := by
  induction e with
  | address m =>
    cases hr : resolveAddress pv m <;> simp [evaluate, hr, hasBoundLeaf]
  | var s =>
    cases hr : List.lookup s env <;> simp [evaluate, hr, hasBoundLeaf]
  | number v => simp [evaluate, hasBoundLeaf]
  | piConstant => simp [evaluate, hasBoundLeaf]
  | functionCall f a ih =>
    rw [hasBoundLeaf_evaluate_functionCall]
    exact ih (by simpa [prefixFree] using h)
  | infixExpr l operator r ihl ihr =>
    rw [prefixFree] at h
    rw [hasBoundLeaf_evaluate_infixExpr, ihl (by simp_all), ihr (by simp_all)]
    rfl
  | prefixExpr operator a ih => simp [prefixFree] at h

/-- C8 counterexample: `x` is bound in the environment, yet
`evaluate (-x)` returns `-x` with the bound `Variable` leaf intact. -/
theorem claim_C8_counterexample :
    evaluate (C := CQ) cqOps (.prefixExpr .minus (.var "x")) [("x", (1, 0))] none =
        .prefixExpr .minus (.var "x") ∧
      hasBoundLeaf (C := CQ) [("x", (1, 0))] none
        (evaluate cqOps (.prefixExpr .minus (.var "x")) [("x", (1, 0))] none) = true := by
  decide

/-- C8 witness: the amended theorem applied to `x + theta[0]` with both leaves
bound. -/
theorem claim_C8_witness :
    prefixFree (C := CQ) (.infixExpr (.var "x") .plus (.address ⟨"theta", 0⟩)) = true ∧
      hasBoundLeaf [("x", ((1 : ℚ), (0 : ℚ)))] (some [("theta", [((2 : ℚ), (0 : ℚ))])])
        (evaluate cqOps (.infixExpr (.var "x") .plus (.address ⟨"theta", 0⟩))
          [("x", (1, 0))] (some [("theta", [(2, 0)])])) = false :=
  ⟨by decide,
    claim_C8 cqOps (.infixExpr (.var "x") .plus (.address ⟨"theta", 0⟩))
      [("x", (1, 0))] (some [("theta", [(2, 0)])]) (by decide)⟩

/-! ### Termination and idempotence of the simplifier -/

/-- Every expression has positive measure. -/
theorem simpMeasure_pos (e : Expression C) : 1 ≤ simpMeasure e := by
  cases e <;> simp [simpMeasure, exprSize] <;> omega

theorem simpMeasure_functionCall (f : ExpressionFunction) (e : Expression C) :
    simpMeasure (.functionCall f e) = simpMeasure e + 1 := by
  simp [simpMeasure, exprSize, symCount]; omega

theorem simpMeasure_infixExpr (l : Expression C) (operator : InfixOperator) (r : Expression C) :
    simpMeasure (.infixExpr l operator r) = simpMeasure l + simpMeasure r + 1 := by
  simp [simpMeasure, exprSize, symCount]; omega

theorem simpMeasure_prefixExpr (operator : PrefixOperator) (e : Expression C) :
    simpMeasure (.prefixExpr operator e) = simpMeasure e + 1 := by
  simp [simpMeasure, exprSize, symCount]; omega

theorem simpMeasure_number (v : C) : simpMeasure (.number v) = 1 := rfl

/-- A non-`Number` expression has measure at least `2`. -/
theorem two_le_simpMeasure (e : Expression C) (h : isNumber e = false) : 2 ≤ simpMeasure e := by
  cases e with
  | number v => simp [isNumber] at h
  | address m => simp [simpMeasure, exprSize, symCount]
  | var s => simp [simpMeasure, exprSize, symCount]
  | piConstant => simp [simpMeasure, exprSize, symCount]
  | functionCall f a =>
    have := simpMeasure_pos a; rw [simpMeasure_functionCall]; omega
  | infixExpr l operator r =>
    have := simpMeasure_pos l; have := simpMeasure_pos r; rw [simpMeasure_infixExpr]; omega
  | prefixExpr operator a =>
    have := simpMeasure_pos a; rw [simpMeasure_prefixExpr]; omega

/-- A `Number` is lighter than any infix node. -/
theorem simpMeasure_number_lt_infixExpr (v : C) (l : Expression C) (operator : InfixOperator)
    (r : Expression C) :
    simpMeasure (.number v) < simpMeasure (.infixExpr l operator r) := by
  rw [simpMeasure_number, simpMeasure_infixExpr]
  have := simpMeasure_pos l; have := simpMeasure_pos r; omega

/-- The left operand is lighter than the infix node. -/
theorem simpMeasure_left_lt_infixExpr (l : Expression C) (operator : InfixOperator)
    (r : Expression C) : simpMeasure l < simpMeasure (.infixExpr l operator r) := by
  rw [simpMeasure_infixExpr]; have := simpMeasure_pos r; omega

/-- The right operand is lighter than the infix node. -/
theorem simpMeasure_right_lt_infixExpr (l : Expression C) (operator : InfixOperator)
    (r : Expression C) : simpMeasure r < simpMeasure (.infixExpr l operator r) := by
  rw [simpMeasure_infixExpr]; have := simpMeasure_pos l; omega

/-- `affineParts` is a decomposition: the measure of the addend is the sum of
its components'. -/
theorem affineParts_measure (s : Expression C) (ao : Option (Expression C))
    (x : Expression C) (bo : Option (Expression C)) (h : affineParts s = (ao, x, bo)) :
    simpMeasure s = optMeasure ao + simpMeasure x + optMeasure bo := by
  unfold affineParts at h
  split at h <;> rename_i hs <;> injection h with h1 h2 <;> injection h2 with h2 h3 <;>
    subst h1 h2 h3 <;>
      simp [optMeasure, simpMeasure_infixExpr] <;> omega

/-- The merged coefficient is no heavier than the two optional coefficients. -/
theorem affineCoeff_measure (ops : ComplexOps C) (a1 a2 : Option (Expression C)) :
    simpMeasure (affineCoeff ops a1 a2) ≤ optMeasure a1 + optMeasure a2 + 1 := by
  cases a1 <;> cases a2 <;>
    simp [affineCoeff, optMeasure, simpMeasure_infixExpr, simpMeasure_number] <;> omega

/-- A successful affine merge strictly decreases the measure. -/
theorem affineMerge_measure [DecidableEq C] (ops : ComplexOps C) (l r m : Expression C)
    (h : affineMerge ops l r = some m) :
    simpMeasure m < simpMeasure l + simpMeasure r + 1 := by
  unfold affineMerge at h
  rcases hl : affineParts l with ⟨a1, x1, b1⟩
  rcases hr : affineParts r with ⟨a2, x2, b2⟩
  rw [hl, hr] at h
  simp only at h
  split at h
  case isTrue hg =>
    obtain ⟨hx, hnum⟩ := hg
    subst hx
    have hL := affineParts_measure l a1 x1 b1 hl
    have hR := affineParts_measure r a2 x1 b2 hr
    have hcoeff := affineCoeff_measure ops a1 a2
    have hx2 : 2 ≤ simpMeasure x1 := two_le_simpMeasure x1 (by simpa using hnum)
    cases b1 <;> cases b2 <;> injection h with h <;> subst h <;>
      simp only [optMeasure, simpMeasure_infixExpr] at * <;> omega
  case isFalse => exact absurd h (by simp)

/-- One rewrite attempt at a `+` node: unchanged or strictly smaller. -/
theorem rewritePlus_measure [DecidableEq C] (ops : ComplexOps C) (l r : Expression C) :
    rewritePlus ops l r = .infixExpr l .plus r ∨
      simpMeasure (rewritePlus ops l r) < simpMeasure (.infixExpr l .plus r) := by
  have hl := simpMeasure_pos l
  have hr := simpMeasure_pos r
  rw [simpMeasure_infixExpr]
  unfold rewritePlus
  split
  · right; omega
  · split
    · right; omega
    · rcases hm : affineMerge ops l r with _ | m
      · left; rfl
      · right; exact affineMerge_measure ops l r m hm

/-- One rewrite attempt at a `-` node: unchanged or strictly smaller. -/
theorem rewriteMinus_measure [DecidableEq C] (ops : ComplexOps C) (l r : Expression C) :
    rewriteMinus ops l r = .infixExpr l .minus r ∨
      simpMeasure (rewriteMinus ops l r) < simpMeasure (.infixExpr l .minus r) := by
  have hl := simpMeasure_pos l
  have hr := simpMeasure_pos r
  rw [simpMeasure_infixExpr]
  unfold rewriteMinus
  split
  · right; omega
  · split
    · right; rw [simpMeasure_number]; omega
    · split
      · rename_i y _
        right
        rw [simpMeasure_infixExpr]
        rw [simpMeasure_prefixExpr] at hr ⊢
        omega
      · left; rfl

/-- Double-negation collapse shrinks the measure. -/
theorem simpMeasure_negneg_lt (x y : Expression C) (op1 op2 : InfixOperator) :
    simpMeasure (.infixExpr x op1 y) <
      simpMeasure (.infixExpr (.prefixExpr .minus x) op2 (.prefixExpr .minus y)) := by
  rw [simpMeasure_infixExpr, simpMeasure_infixExpr, simpMeasure_prefixExpr,
    simpMeasure_prefixExpr]
  omega

/-- The left factor of the left operand is lighter than the whole node. -/
theorem simpMeasure_ll_lt (x y r : Expression C) (op1 op2 : InfixOperator) :
    simpMeasure x < simpMeasure (.infixExpr (.infixExpr x op1 y) op2 r) :=
  lt_trans (simpMeasure_left_lt_infixExpr x op1 y) (simpMeasure_left_lt_infixExpr _ op2 r)

/-- The right factor of the left operand is lighter than the whole node. -/
theorem simpMeasure_lr_lt (x y r : Expression C) (op1 op2 : InfixOperator) :
    simpMeasure y < simpMeasure (.infixExpr (.infixExpr x op1 y) op2 r) :=
  lt_trans (simpMeasure_right_lt_infixExpr x op1 y) (simpMeasure_left_lt_infixExpr _ op2 r)

/-- The left factor of the right operand is lighter than the whole node. -/
theorem simpMeasure_rl_lt (l x y : Expression C) (op1 op2 : InfixOperator) :
    simpMeasure x < simpMeasure (.infixExpr l op2 (.infixExpr x op1 y)) :=
  lt_trans (simpMeasure_left_lt_infixExpr x op1 y) (simpMeasure_right_lt_infixExpr l op2 _)

/-- The right factor of the right operand is lighter than the whole node. -/
theorem simpMeasure_rr_lt (l x y : Expression C) (op1 op2 : InfixOperator) :
    simpMeasure y < simpMeasure (.infixExpr l op2 (.infixExpr x op1 y)) :=
  lt_trans (simpMeasure_right_lt_infixExpr x op1 y) (simpMeasure_right_lt_infixExpr l op2 _)

/-- Replacing a factor of the right operand by a literal `1` shrinks the
measure. -/
theorem simpMeasure_one_div_lt (v : C) (l x y : Expression C) (op1 op2 op3 : InfixOperator) :
    simpMeasure (.infixExpr (.number v) op1 y) <
      simpMeasure (.infixExpr l op2 (.infixExpr y op3 x)) := by
  rw [simpMeasure_infixExpr, simpMeasure_infixExpr, simpMeasure_infixExpr, simpMeasure_number]
  have := simpMeasure_pos l
  have := simpMeasure_pos x
  omega

/-- Variant of `simpMeasure_one_div_lt` keeping the right factor. -/
theorem simpMeasure_one_div_right_lt (v : C) (l x y : Expression C)
    (op1 op2 op3 : InfixOperator) :
    simpMeasure (.infixExpr (.number v) op1 x) <
      simpMeasure (.infixExpr l op2 (.infixExpr y op3 x)) := by
  rw [simpMeasure_infixExpr, simpMeasure_infixExpr, simpMeasure_infixExpr, simpMeasure_number]
  have := simpMeasure_pos l
  have := simpMeasure_pos y
  omega

/-- A successful `*`-cancellation strictly decreases the measure. -/
theorem starCancel_measure [DecidableEq C] (l r m : Expression C)
    (h : starCancel l r = some m) :
    simpMeasure m < simpMeasure (.infixExpr l .star r) := by
  unfold starCancel at h
  split at h
  · injection h with h
    rw [← h]
    exact simpMeasure_negneg_lt ..
  · split at h
    · injection h with h
      rw [← h]
      exact simpMeasure_ll_lt ..
    · exact Option.noConfusion h
  · split at h
    · injection h with h
      rw [← h]
      exact simpMeasure_rl_lt ..
    · exact Option.noConfusion h
  · exact Option.noConfusion h

/-- A successful `/`-cancellation strictly decreases the measure. -/
theorem slashCancel_measure [DecidableEq C] (ops : ComplexOps C) (l r m : Expression C)
    (h : slashCancel ops l r = some m) :
    simpMeasure m < simpMeasure (.infixExpr l .slash r) := by
  unfold slashCancel at h
  split at h
  · injection h with h
    rw [← h]
    exact simpMeasure_negneg_lt ..
  · split at h
    · injection h with h
      rw [← h]
      exact simpMeasure_ll_lt ..
    · split at h
      · injection h with h
        rw [← h]
        exact simpMeasure_lr_lt ..
      · exact Option.noConfusion h
  · split at h
    · injection h with h
      rw [← h]
      exact simpMeasure_one_div_lt ..
    · split at h
      · injection h with h
        rw [← h]
        exact simpMeasure_one_div_right_lt ..
      · exact Option.noConfusion h
  · exact Option.noConfusion h

/-- One rewrite attempt at a `*` node: unchanged or strictly smaller. -/
theorem rewriteStar_measure [DecidableEq C] (ops : ComplexOps C) (l r : Expression C) :
    rewriteStar ops l r = .infixExpr l .star r ∨
      simpMeasure (rewriteStar ops l r) < simpMeasure (.infixExpr l .star r) := by
  unfold rewriteStar
  split
  · right; exact simpMeasure_number_lt_infixExpr ..
  · split
    · right; exact simpMeasure_right_lt_infixExpr ..
    · split
      · right; exact simpMeasure_left_lt_infixExpr ..
      · rcases hc : starCancel l r with _ | m
        · left; rfl
        · right; exact starCancel_measure l r m hc

/-- One rewrite attempt at a `/` node: unchanged or strictly smaller. -/
theorem rewriteSlash_measure [DecidableEq C] (ops : ComplexOps C) (l r : Expression C) :
    rewriteSlash ops l r = .infixExpr l .slash r ∨
      simpMeasure (rewriteSlash ops l r) < simpMeasure (.infixExpr l .slash r) := by
  unfold rewriteSlash
  split
  · right; exact simpMeasure_number_lt_infixExpr ..
  · split
    · right; exact simpMeasure_left_lt_infixExpr ..
    · split
      · right; exact simpMeasure_number_lt_infixExpr ..
      · rcases hc : slashCancel ops l r with _ | m
        · left; rfl
        · right; exact slashCancel_measure ops l r m hc

/-- One rewrite attempt at a `^` node: unchanged or strictly smaller. -/
theorem rewriteCaret_measure [DecidableEq C] (ops : ComplexOps C) (l r : Expression C) :
    rewriteCaret ops l r = .infixExpr l .caret r ∨
      simpMeasure (rewriteCaret ops l r) < simpMeasure (.infixExpr l .caret r) := by
  have hl := simpMeasure_pos l
  have hr := simpMeasure_pos r
  rw [simpMeasure_infixExpr]
  unfold rewriteCaret
  split
  · right; rw [simpMeasure_number]; omega
  · split
    · right; rw [simpMeasure_number]; omega
    · left; rfl

/-- One rewrite attempt at an infix node: unchanged or strictly smaller. -/
theorem rewriteInfixNode_measure [DecidableEq C] (ops : ComplexOps C)
    (l : Expression C) (operator : InfixOperator) (r : Expression C) :
    rewriteInfixNode ops l operator r = .infixExpr l operator r ∨
      simpMeasure (rewriteInfixNode ops l operator r) <
        simpMeasure (.infixExpr l operator r) := by
  unfold rewriteInfixNode
  split
  · right; exact simpMeasure_number_lt_infixExpr ..
  · cases operator with
    | plus => exact rewritePlus_measure ops l r
    | minus => exact rewriteMinus_measure ops l r
    | star => exact rewriteStar_measure ops l r
    | slash => exact rewriteSlash_measure ops l r
    | caret => exact rewriteCaret_measure ops l r

/-- One rewrite attempt at the root: unchanged or strictly smaller. -/
theorem rewriteTop_measure [DecidableEq C] (ops : ComplexOps C) (e : Expression C) :
    rewriteTop ops e = e ∨ simpMeasure (rewriteTop ops e) < simpMeasure e := by
  cases e with
  | piConstant => right; simp [rewriteTop, simpMeasure, exprSize, symCount]
  | functionCall f a =>
    cases a with
    | number v =>
      right
      have hv : rewriteTop ops (.functionCall f (.number v)) =
          .number (calculate_function ops f v) := rfl
      rw [hv, simpMeasure_number, simpMeasure_functionCall, simpMeasure_number]
      omega
    | address m => left; rfl
    | var s => left; rfl
    | piConstant => left; rfl
    | functionCall g b => left; rfl
    | infixExpr x op2 y => left; rfl
    | prefixExpr op2 b => left; rfl
  | prefixExpr operator a =>
    cases operator with
    | plus =>
      right
      have hv : rewriteTop ops (.prefixExpr .plus a) = a := rfl
      rw [hv, simpMeasure_prefixExpr]
      omega
    | minus =>
      cases a with
      | number v =>
        right
        have hv : rewriteTop ops (.prefixExpr .minus (.number v)) = .number (ops.neg v) := rfl
        rw [hv, simpMeasure_number, simpMeasure_prefixExpr, simpMeasure_number]
        omega
      | prefixExpr op2 y =>
        cases op2 with
        | plus => left; rfl
        | minus =>
          right
          have hv : rewriteTop ops (.prefixExpr .minus (.prefixExpr .minus y)) = y := rfl
          rw [hv, simpMeasure_prefixExpr, simpMeasure_prefixExpr]
          omega
      | address m => left; rfl
      | var s => left; rfl
      | piConstant => left; rfl
      | functionCall g b => left; rfl
      | infixExpr x op2 y => left; rfl
  | infixExpr l operator r => exact rewriteInfixNode_measure ops l operator r
  | number v => left; rfl
  | address m => left; rfl
  | var s => left; rfl

/-- `rewriteTop` never increases the measure. -/
theorem rewriteTop_measure_le [DecidableEq C] (ops : ComplexOps C) (e : Expression C) :
    simpMeasure (rewriteTop ops e) ≤ simpMeasure e := by
  rcases rewriteTop_measure ops e with h | h
  · rw [h]
  · omega

/-- A pass never increases the measure. -/
theorem pass_measure_le [DecidableEq C] (ops : ComplexOps C) (e : Expression C) :
    simpMeasure (pass ops e) ≤ simpMeasure e := by
  induction e with
  | functionCall f a ih =>
    rw [pass]
    calc simpMeasure (rewriteTop ops (.functionCall f (pass ops a)))
        ≤ simpMeasure (Expression.functionCall f (pass ops a)) := rewriteTop_measure_le ops _
      _ = simpMeasure (pass ops a) + 1 := simpMeasure_functionCall ..
      _ ≤ simpMeasure a + 1 := by omega
      _ = simpMeasure (.functionCall f a) := (simpMeasure_functionCall ..).symm
  | infixExpr l operator r ihl ihr =>
    rw [pass]
    calc simpMeasure (rewriteTop ops (.infixExpr (pass ops l) operator (pass ops r)))
        ≤ simpMeasure (Expression.infixExpr (pass ops l) operator (pass ops r)) :=
          rewriteTop_measure_le ops _
      _ = simpMeasure (pass ops l) + simpMeasure (pass ops r) + 1 := simpMeasure_infixExpr ..
      _ ≤ simpMeasure l + simpMeasure r + 1 := by omega
      _ = simpMeasure (.infixExpr l operator r) := (simpMeasure_infixExpr ..).symm
  | prefixExpr operator a ih =>
    rw [pass]
    calc simpMeasure (rewriteTop ops (.prefixExpr operator (pass ops a)))
        ≤ simpMeasure (Expression.prefixExpr operator (pass ops a)) := rewriteTop_measure_le ops _
      _ = simpMeasure (pass ops a) + 1 := simpMeasure_prefixExpr ..
      _ ≤ simpMeasure a + 1 := by omega
      _ = simpMeasure (.prefixExpr operator a) := (simpMeasure_prefixExpr ..).symm
  | number v => exact rewriteTop_measure_le ops _
  | piConstant => exact rewriteTop_measure_le ops _
  | address m => exact rewriteTop_measure_le ops _
  | var s => exact rewriteTop_measure_le ops _

/-- A productive pass strictly decreases the measure. -/
theorem pass_measure_lt [DecidableEq C] (ops : ComplexOps C) (e : Expression C)
    (h : pass ops e ≠ e) : simpMeasure (pass ops e) < simpMeasure e := by
  induction e with
  | functionCall f a ih =>
    rw [pass] at h ⊢
    by_cases ha : pass ops a = a
    · rw [ha] at h ⊢
      rcases rewriteTop_measure ops (.functionCall f a) with h' | h'
      · exact absurd h' h
      · exact h'
    · have h1 := rewriteTop_measure_le ops (Expression.functionCall f (pass ops a))
      have h2 := ih ha
      rw [simpMeasure_functionCall] at h1
      rw [simpMeasure_functionCall]
      omega
  | infixExpr l operator r ihl ihr =>
    rw [pass] at h ⊢
    by_cases hl : pass ops l = l
    · by_cases hr : pass ops r = r
      · rw [hl, hr] at h ⊢
        rcases rewriteTop_measure ops (.infixExpr l operator r) with h' | h'
        · exact absurd h' h
        · exact h'
      · have h1 := rewriteTop_measure_le ops (Expression.infixExpr (pass ops l) operator (pass ops r))
        have h2 := ihr hr
        have h3 := pass_measure_le ops l
        rw [simpMeasure_infixExpr] at h1
        rw [simpMeasure_infixExpr]
        omega
    · have h1 := rewriteTop_measure_le ops (Expression.infixExpr (pass ops l) operator (pass ops r))
      have h2 := ihl hl
      have h3 := pass_measure_le ops r
      rw [simpMeasure_infixExpr] at h1
      rw [simpMeasure_infixExpr]
      omega
  | prefixExpr operator a ih =>
    rw [pass] at h ⊢
    by_cases ha : pass ops a = a
    · rw [ha] at h ⊢
      rcases rewriteTop_measure ops (.prefixExpr operator a) with h' | h'
      · exact absurd h' h
      · exact h'
    · have h1 := rewriteTop_measure_le ops (Expression.prefixExpr operator (pass ops a))
      have h2 := ih ha
      rw [simpMeasure_prefixExpr] at h1
      rw [simpMeasure_prefixExpr]
      omega
  | number v =>
    have hp : pass ops (.number v) = rewriteTop ops (.number v) := rfl
    rw [hp] at h ⊢
    rcases rewriteTop_measure ops (.number v) with h' | h'
    · exact absurd h' h
    · exact h'
  | piConstant =>
    have hp : pass ops (.piConstant : Expression C) = rewriteTop ops .piConstant := rfl
    rw [hp] at h ⊢
    rcases rewriteTop_measure ops (.piConstant : Expression C) with h' | h'
    · exact absurd h' h
    · exact h'
  | address m =>
    have hp : pass ops (.address m : Expression C) = rewriteTop ops (.address m) := rfl
    rw [hp] at h ⊢
    rcases rewriteTop_measure ops (.address m : Expression C) with h' | h'
    · exact absurd h' h
    · exact h'
  | var s =>
    have hp : pass ops (.var s : Expression C) = rewriteTop ops (.var s) := rfl
    rw [hp] at h ⊢
    rcases rewriteTop_measure ops (.var s : Expression C) with h' | h'
    · exact absurd h' h
    · exact h'

/-- With fuel exceeding the measure, the iteration reaches a `pass` fixed
point. -/
theorem pass_simplifyFuel [DecidableEq C] (ops : ComplexOps C) (fuel : Nat) (e : Expression C)
    (h : simpMeasure e < fuel) : pass ops (simplifyFuel ops fuel e) = simplifyFuel ops fuel e := by
  induction fuel generalizing e with
  | zero => omega
  | succ n ih =>
    rw [simplifyFuel]
    by_cases he : pass ops e = e
    · simp only [he, if_pos rfl]
      exact he
    · simp only [if_neg he]
      exact ih (pass ops e) (by have := pass_measure_lt ops e he; omega)

/-- The simplifier's output is a `pass` fixed point. -/
theorem pass_simplify [DecidableEq C] (ops : ComplexOps C) (e : Expression C) :
    pass ops (simplify ops e) = simplify ops e :=
  pass_simplifyFuel ops (simpMeasure e + 1) e (by omega)

/-- C6: simplification is idempotent — for every expression `e`,
`simplify (simplify e) = simplify e`.  (The simplifier is modelled from the
spec because `by_hand.rs` is not part of this snapshot.) -/
theorem claim_C6 [DecidableEq C] (ops : ComplexOps C) (e : Expression C) :
    simplify ops (simplify ops e) = simplify ops e := by
  rw [simplify, simplifyFuel]
  simp [pass_simplify ops e]

/-! ### C10: the multi-qubit depth never exceeds the gate depth -/

/-- Folding with a pointwise-dominated step dominates pointwise, path by
path. -/
theorem pathFoldFrom_mono (g : ExecutionGraph Q) (f1 f2 : Nat → Instruction Q → Nat)
    (hstep : ∀ a b i, a ≤ b → f1 a i ≤ f2 b i) :
    ∀ (fuel : Nat) (n a b : Nat), a ≤ b →
      List.Forall₂ (· ≤ ·) (g.pathFoldFrom f1 fuel a n) (g.pathFoldFrom f2 fuel b n) := by
  intro fuel
  induction fuel with
  | zero => intro n a b _; exact List.Forall₂.nil
  | succ fuel ih =>
    intro n a b hab
    rw [ExecutionGraph.pathFoldFrom, ExecutionGraph.pathFoldFrom]
    have hv := hstep a b (g.nodes.getD n default) hab
    by_cases hs : (g.successors n).isEmpty
    · rw [if_pos hs, if_pos hs]
      exact List.Forall₂.cons hv List.Forall₂.nil
    · rw [if_neg hs, if_neg hs]
      have hflat : ∀ L : List Nat,
          List.Forall₂ (· ≤ ·)
            ((L.map (g.pathFoldFrom f1 fuel (f1 a (g.nodes.getD n default)))).flatten)
            ((L.map (g.pathFoldFrom f2 fuel (f2 b (g.nodes.getD n default)))).flatten) := by
        intro L
        induction L with
        | nil => exact List.Forall₂.nil
        | cons m L ihL =>
          simp only [List.map_cons, List.flatten_cons]
          exact List.rel_append (ih m _ _ hv) ihL
      exact hflat (g.successors n)

/-- Pointwise-dominated folds yield pointwise-dominated result lists. -/
theorem pathFold_mono (g : ExecutionGraph Q) (f1 f2 : Nat → Instruction Q → Nat)
    (hstep : ∀ a b i, a ≤ b → f1 a i ≤ f2 b i) (a b : Nat) (hab : a ≤ b) :
    List.Forall₂ (· ≤ ·) (g.pathFold a f1) (g.pathFold b f2) := by
  rw [ExecutionGraph.pathFold, ExecutionGraph.pathFold]
  by_cases hs : g.roots.isEmpty
  · rw [if_pos hs, if_pos hs]
    exact List.Forall₂.cons hab List.Forall₂.nil
  · rw [if_neg hs, if_neg hs]
    have hflat : ∀ L : List Nat,
        List.Forall₂ (· ≤ ·)
          ((L.map (g.pathFoldFrom f1 g.nodes.length a)).flatten)
          ((L.map (g.pathFoldFrom f2 g.nodes.length b)).flatten) := by
      intro L
      induction L with
      | nil => exact List.Forall₂.nil
      | cons m L ihL =>
        simp only [List.map_cons, List.flatten_cons]
        exact List.rel_append (pathFoldFrom_mono g f1 f2 hstep g.nodes.length m a b hab) ihL
    exact hflat g.roots

/-- Folding `max` over pointwise-dominated lists preserves the order. -/
theorem foldl_max_mono :
    ∀ {l1 l2 : List Nat}, List.Forall₂ (· ≤ ·) l1 l2 →
      ∀ a b : Nat, a ≤ b → l1.foldl max a ≤ l2.foldl max b := by
  intro l1 l2 h
  induction h with
  | nil => intro a b hab; exact hab
  | cons hxy hrest ih =>
    intro a b hab
    exact ih _ _ (max_le_max hab hxy)

/-- The defaulted maximum respects pointwise domination. -/
theorem max_getD_mono (l1 l2 : List Nat) (h : List.Forall₂ (· ≤ ·) l1 l2) :
    l1.max?.getD 0 ≤ l2.max?.getD 0 := by
  cases h with
  | nil => simp
  | cons hxy hrest =>
    rw [List.max?_cons', List.max?_cons']
    exact foldl_max_mono hrest _ _ hxy

/-- The multi-qubit step is dominated by the gate step. -/
theorem multiQubitGateStep_le_gateStep (a b : Nat) (i : Instruction Q) (hab : a ≤ b) :
    multiQubitGateStep a i ≤ gateStep b i := by
  cases i <;> simp only [multiQubitGateStep, gateStep] <;> try omega
  split <;> omega

/-- C10: for every successfully built execution graph, the multi-qubit gate
depth is at most the gate depth — on every enumerated root-to-leaf path the
multi-qubit fold increments only when the gate fold does. -/
theorem claim_C10 (l : List (Instruction Q)) (g : ExecutionGraph Q)
    (h : ExecutionGraph.new l = .ok g) :
    g.multi_qubit_gate_depth ≤ g.gate_depth := by
  rw [ExecutionGraph.multi_qubit_gate_depth, ExecutionGraph.gate_depth]
  exact max_getD_mono _ _
    (pathFold_mono g multiQubitGateStep gateStep multiQubitGateStep_le_gateStep 0 0 le_rfl)

/-- C10 witness: the theorem applied to `CNOT 0 1; X 0; H 1`. -/
theorem claim_C10_witness :
    ExecutionGraph.new (Q := Nat) [.gate ⟨[0, 1]⟩, .gate ⟨[0]⟩, .gate ⟨[1]⟩] =
        .ok ⟨[.gate ⟨[0, 1]⟩, .gate ⟨[0]⟩, .gate ⟨[1]⟩], [(0, 1, 0), (0, 2, 1)]⟩ ∧
      (ExecutionGraph.mk (Q := Nat) [.gate ⟨[0, 1]⟩, .gate ⟨[0]⟩, .gate ⟨[1]⟩]
          [(0, 1, 0), (0, 2, 1)]).multi_qubit_gate_depth ≤
        (ExecutionGraph.mk (Q := Nat) [.gate ⟨[0, 1]⟩, .gate ⟨[0]⟩, .gate ⟨[1]⟩]
          [(0, 1, 0), (0, 2, 1)]).gate_depth :=
  ⟨by decide,
    claim_C10 (Q := Nat) [.gate ⟨[0, 1]⟩, .gate ⟨[0]⟩, .gate ⟨[1]⟩] _ (by decide)⟩

/-! ### C1: the depth metrics are maxima over root-to-leaf paths -/

/-- Membership in the successor list, phrased through the recorded edges. -/
theorem mem_successors (g : ExecutionGraph Q) (n m : Nat) :
    m ∈ g.successors n ↔ ∃ q, (n, m, q) ∈ g.edges := by
  simp only [ExecutionGraph.successors, List.mem_map, List.mem_filter]
  constructor
  · rintro ⟨⟨a, b, q⟩, ⟨he, hn⟩, hm⟩
    simp only at hm
    have ha : a = n := by simpa using hn
    subst ha hm
    exact ⟨q, he⟩
  · rintro ⟨q, hq⟩
    exact ⟨(n, m, q), ⟨hq, by simp⟩, rfl⟩

/-- A node's successor list is empty exactly when it has no outgoing edge. -/
theorem successors_eq_nil_iff (g : ExecutionGraph Q) (n : Nat) :
    g.successors n = [] ↔ ∀ e ∈ g.edges, e.1 ≠ n := by
  simp [ExecutionGraph.successors, List.filter_eq_nil_iff]

/-- Membership in the root list. -/
theorem mem_roots (g : ExecutionGraph Q) (r : Nat) : r ∈ g.roots ↔ g.IsRoot r := by
  simp [ExecutionGraph.roots, ExecutionGraph.IsRoot, List.mem_filter, List.mem_range,
    List.all_eq_true]

/-- With sound edges, the root list is empty exactly on the empty graph. -/
theorem roots_isEmpty_iff (g : ExecutionGraph Q) (hE : g.EdgesSound) :
    g.roots.isEmpty = true ↔ g.nodes = [] := by
  rw [List.isEmpty_iff]
  constructor
  · intro h
    by_contra hne
    have h0 : g.IsRoot 0 := by
      refine ⟨List.length_pos.mpr hne, fun e he h0 => ?_⟩
      have := (hE e he).1
      omega
    have := (mem_roots g 0).mpr h0
    rw [h] at this
    exact absurd this (by simp)
  · intro h
    simp [ExecutionGraph.roots, h]

/-- Everything a `TailPath` guarantees: it starts at its head, ends at a leaf,
follows edges, and stays in range. -/
theorem tailPath_props (g : ExecutionGraph Q) (hE : g.EdgesSound) {n : Nat} {p : List Nat}
    (h : g.TailPath n p) :
    ∃ h' : p ≠ [], p.head h' = n ∧ g.IsLeaf (p.getLast h') ∧
      p.Chain' g.HasEdge ∧ ∀ k ∈ p, k < g.nodes.length := by
  induction h with
  | @leaf n0 hl =>
    refine ⟨by simp, rfl, by simpa using hl, List.chain'_singleton _, ?_⟩
    intro k hk
    rw [List.mem_singleton] at hk
    subst hk
    exact hl.1
  | @cons n0 m0 p0 he ht ih =>
    obtain ⟨h', hhead, hlast, hchain, hmem⟩ := ih
    have hn0 : n0 < g.nodes.length := by
      obtain ⟨q, hq⟩ := he
      have := hE _ hq
      simp only at this
      omega
    refine ⟨by simp, rfl, ?_, ?_, ?_⟩
    · rw [List.getLast_cons h']
      exact hlast
    · rw [List.chain'_cons']
      refine ⟨fun y hy => ?_, hchain⟩
      rw [List.head?_eq_head h'] at hy
      have hym : p0.head h' = y := Option.mem_some_iff.mp hy
      rw [← hym, hhead]
      exact he
    · intro k hk
      rcases List.mem_cons.mp hk with rfl | hk
      · exact hn0
      · exact hmem k hk

/-- Conversely, a nonempty edge chain ending at a leaf is a `TailPath` from its
head. -/
theorem tailPath_of_chain (g : ExecutionGraph Q) :
    ∀ (p : List Nat) (h : p ≠ []), p.Chain' g.HasEdge → g.IsLeaf (p.getLast h) →
      g.TailPath (p.head h) p := by
  intro p
  induction p with
  | nil => intro h; exact absurd rfl h
  | cons n rest ih =>
    intro h hchain hleaf
    cases rest with
    | nil => exact .leaf (by simpa using hleaf)
    | cons m rest2 =>
      obtain ⟨he, hch⟩ := List.chain'_cons.mp hchain
      have hlast : (n :: m :: rest2).getLast h = (m :: rest2).getLast (by simp) :=
        List.getLast_cons _
      have ht := ih (by simp) hch (hlast ▸ hleaf)
      exact .cons he ht

/-- The fuelled walk enumerates exactly the accumulator values of the tail
paths out of `n`, and finds at least one. -/
theorem pathFoldFrom_spec {T : Type} (g : ExecutionGraph Q) (hE : g.EdgesSound)
    (f : T → Instruction Q → T) :
    ∀ (fuel n : Nat), n < g.nodes.length → g.nodes.length - n ≤ fuel → ∀ acc : T,
      g.pathFoldFrom f fuel acc n ≠ [] ∧
        ∀ x, x ∈ g.pathFoldFrom f fuel acc n ↔
          ∃ p, g.TailPath n p ∧
            x = p.foldl (fun a k => f a (g.nodes.getD k default)) acc := by
  intro fuel
  induction fuel with
  | zero => intro n h1 h2; omega
  | succ fuel ih =>
    intro n h1 h2 acc
    simp only [ExecutionGraph.pathFoldFrom]
    by_cases hs : (g.successors n).isEmpty
    · rw [if_pos hs]
      have hleaf : g.IsLeaf n :=
        ⟨h1, (successors_eq_nil_iff g n).mp (List.isEmpty_iff.mp hs)⟩
      refine ⟨by simp, fun x => ?_⟩
      simp only [List.mem_singleton]
      constructor
      · intro hx
        exact ⟨[n], .leaf hleaf, by simpa using hx⟩
      · rintro ⟨p, hp, hx⟩
        cases hp with
        | leaf _ => simpa using hx
        | cons he ht =>
          obtain ⟨q, hq⟩ := he
          exact absurd rfl (hleaf.2 _ hq)
    · rw [if_neg hs]
      have hsn : g.successors n ≠ [] := fun hnil => hs (List.isEmpty_iff.mpr hnil)
      have hbound : ∀ m ∈ g.successors n, n < m ∧ m < g.nodes.length := by
        intro m hm
        obtain ⟨q, hq⟩ := (mem_successors g n m).mp hm
        exact (hE _ hq).imp id (fun h => h)
      constructor
      · obtain ⟨m, hm⟩ := List.exists_mem_of_ne_nil _ hsn
        obtain ⟨hm1, hm2⟩ := hbound m hm
        obtain ⟨hne, _⟩ := ih m hm2 (by omega) (f acc (g.nodes.getD n default))
        obtain ⟨x, hx⟩ := List.exists_mem_of_ne_nil _ hne
        exact List.ne_nil_of_mem (List.mem_flatten.mpr ⟨_, List.mem_map_of_mem _ hm, hx⟩)
      · intro x
        rw [List.mem_flatten]
        constructor
        · rintro ⟨L, hL, hx⟩
          obtain ⟨m, hm, rfl⟩ := List.mem_map.mp hL
          obtain ⟨hm1, hm2⟩ := hbound m hm
          obtain ⟨_, hiff⟩ := ih m hm2 (by omega) (f acc (g.nodes.getD n default))
          obtain ⟨p', hp', hx'⟩ := (hiff x).mp hx
          refine ⟨n :: p', .cons ((mem_successors g n m).mp hm) hp', ?_⟩
          simpa using hx'
        · rintro ⟨p, hp, hx⟩
          cases hp with
          | leaf hl =>
            obtain ⟨m, hm⟩ := List.exists_mem_of_ne_nil _ hsn
            obtain ⟨q, hq⟩ := (mem_successors g n m).mp hm
            exact absurd rfl (hl.2 _ hq)
          | cons he ht =>
            rename_i m p'
            have hm : m ∈ g.successors n := (mem_successors g n m).mpr he
            obtain ⟨hm1, hm2⟩ := hbound m hm
            obtain ⟨_, hiff⟩ := ih m hm2 (by omega) (f acc (g.nodes.getD n default))
            refine ⟨_, List.mem_map_of_mem _ hm, (hiff x).mpr ⟨p', ht, ?_⟩⟩
            simpa using hx

/-- On the empty graph the fold returns only the seed. -/
theorem pathFold_empty {T : Type} (g : ExecutionGraph Q) (h : g.nodes = [])
    (init : T) (f : T → Instruction Q → T) : g.pathFold init f = [init] := by
  rw [ExecutionGraph.pathFold, if_pos]
  simp [ExecutionGraph.roots, h]

/-- On a nonempty graph, the fold's results are exactly the accumulator values
threaded along complete root-to-leaf paths, and at least one path exists. -/
theorem pathFold_spec {T : Type} (g : ExecutionGraph Q) (hE : g.EdgesSound)
    (hne : g.nodes ≠ []) (init : T) (f : T → Instruction Q → T) :
    g.pathFold init f ≠ [] ∧
      ∀ x, x ∈ g.pathFold init f ↔
        ∃ p, g.IsPath p ∧
          x = p.foldl (fun a k => f a (g.nodes.getD k default)) init := by
  rw [ExecutionGraph.pathFold]
  have hre : ¬ g.roots.isEmpty = true := fun h => hne ((roots_isEmpty_iff g hE).mp h)
  rw [if_neg hre]
  have hrn : g.roots ≠ [] := fun h => hre (List.isEmpty_iff.mpr h)
  constructor
  · obtain ⟨r, hr⟩ := List.exists_mem_of_ne_nil _ hrn
    have hroot := (mem_roots g r).mp hr
    obtain ⟨hne', _⟩ := pathFoldFrom_spec g hE f g.nodes.length r hroot.1 (by omega) init
    obtain ⟨x, hx⟩ := List.exists_mem_of_ne_nil _ hne'
    exact List.ne_nil_of_mem (List.mem_flatten.mpr ⟨_, List.mem_map_of_mem _ hr, hx⟩)
  · intro x
    rw [List.mem_flatten]
    constructor
    · rintro ⟨L, hL, hx⟩
      obtain ⟨r, hr, rfl⟩ := List.mem_map.mp hL
      have hroot := (mem_roots g r).mp hr
      obtain ⟨_, hiff⟩ := pathFoldFrom_spec g hE f g.nodes.length r hroot.1 (by omega) init
      obtain ⟨p, hp, hx'⟩ := (hiff x).mp hx
      obtain ⟨h', hhead, hlast, hchain, hmem⟩ := tailPath_props g hE hp
      exact ⟨p, ⟨h', hmem, hchain, hhead ▸ hroot, hlast⟩, hx'⟩
    · rintro ⟨p, ⟨h', hmem, hchain, hroot, hlast⟩, hx⟩
      have ht := tailPath_of_chain g p h' hchain hlast
      have hr : p.head h' ∈ g.roots := (mem_roots g _).mpr hroot
      obtain ⟨_, hiff⟩ :=
        pathFoldFrom_spec g hE f g.nodes.length (p.head h') hroot.1 (by omega) init
      exact ⟨_, List.mem_map_of_mem _ hr, (hiff x).mpr ⟨p, ht, hx⟩⟩

/-- Folding a counting step computes the count. -/
theorem foldl_count_step (g : ExecutionGraph Q) (B : Instruction Q → Bool)
    (f : Nat → Instruction Q → Nat) (hfB : ∀ a i, f a i = if B i then a + 1 else a) :
    ∀ (p : List Nat) (c : Nat),
      p.foldl (fun a k => f a (g.nodes.getD k default)) c =
        c + p.countP (fun n => B (g.nodes.getD n default)) := by
  intro p
  induction p with
  | nil => intro c; simp
  | cons k p ih =>
    intro c
    rw [List.foldl_cons, ih, List.countP_cons, hfB]
    split <;> simp_all <;> omega

/-- The gate step counts `Gate` instructions. -/
theorem gateStep_eq (a : Nat) (i : Instruction Q) :
    gateStep a i = if isGateInstr i then a + 1 else a := by
  cases i <;> simp [gateStep, isGateInstr]

/-- The multi-qubit step counts multi-qubit `Gate` instructions. -/
theorem multiQubitGateStep_eq (a : Nat) (i : Instruction Q) :
    multiQubitGateStep a i = if isMultiQubitGateInstr i then a + 1 else a := by
  cases i with
  | gate gd =>
    by_cases hq : gd.qubits.length > 1 <;>
      simp [multiQubitGateStep, isMultiQubitGateInstr, hq]
  | _ => simp [multiQubitGateStep, isMultiQubitGateInstr]

/-- A counting fold's defaulted maximum is the maximum count over root-to-leaf
paths (nonempty graph). -/
theorem depth_max_spec (g : ExecutionGraph Q) (hE : g.EdgesSound) (hne : g.nodes ≠ [])
    (B : Instruction Q → Bool) (f : Nat → Instruction Q → Nat)
    (hfB : ∀ a i, f a i = if B i then a + 1 else a) :
    (∃ p, g.IsPath p ∧
        p.countP (fun n => B (g.nodes.getD n default)) = ((g.pathFold 0 f).max?).getD 0) ∧
      ∀ p, g.IsPath p →
        p.countP (fun n => B (g.nodes.getD n default)) ≤ ((g.pathFold 0 f).max?).getD 0 := by
  obtain ⟨hnz, hiff⟩ := pathFold_spec g hE hne 0 f
  obtain ⟨m, hm⟩ : ∃ m, (g.pathFold 0 f).max? = some m := by
    cases h : (g.pathFold 0 f).max? with
    | none => exact absurd (List.max?_eq_none_iff.mp h) hnz
    | some m => exact ⟨m, rfl⟩
  obtain ⟨hmem, hbound⟩ := List.max?_eq_some_iff'.mp hm
  rw [hm]
  constructor
  · obtain ⟨p, hp, hx⟩ := (hiff m).mp hmem
    refine ⟨p, hp, ?_⟩
    rw [foldl_count_step g B f hfB] at hx
    simpa using hx.symm
  · intro p hp
    have : p.foldl (fun a k => f a (g.nodes.getD k default)) 0 ∈ g.pathFold 0 f :=
      (hiff _).mpr ⟨p, hp, rfl⟩
    have hb := hbound _ this
    rw [foldl_count_step g B f hfB] at hb
    simpa using hb

/-- C1: for every instruction sequence accepted by `ExecutionGraph::new`,
`gate_depth` is the maximum number of `Gate` instructions over all paths from
a root (no incoming edge) to a leaf (no outgoing edge), and
`multi_qubit_gate_depth` is the same maximum counting only gates whose qubit
list has more than one element; each path threads its count independently
(convergent nodes are counted once per incoming path), and both metrics are
`0` on the empty graph.  (`get_qubits`/`role_for_instruction` are modelled
from the spec.) -/
theorem claim_C1 (l : List (Instruction Q)) (g : ExecutionGraph Q)
    (h : ExecutionGraph.new l = .ok g) :
    (g.nodes = [] → g.gate_depth = 0 ∧ g.multi_qubit_gate_depth = 0) ∧
      (g.nodes ≠ [] →
        ((∃ p, g.IsPath p ∧ g.gateCount p = g.gate_depth) ∧
            ∀ p, g.IsPath p → g.gateCount p ≤ g.gate_depth) ∧
          ((∃ p, g.IsPath p ∧ g.multiQubitGateCount p = g.multi_qubit_gate_depth) ∧
            ∀ p, g.IsPath p → g.multiQubitGateCount p ≤ g.multi_qubit_gate_depth)) := by
  have hE := new_edgesSound l g h
  constructor
  · intro hempty
    rw [ExecutionGraph.gate_depth, ExecutionGraph.multi_qubit_gate_depth,
      pathFold_empty g hempty, pathFold_empty g hempty]
    exact ⟨rfl, rfl⟩
  · intro hne
    exact ⟨depth_max_spec g hE hne isGateInstr gateStep gateStep_eq,
      depth_max_spec g hE hne isMultiQubitGateInstr multiQubitGateStep multiQubitGateStep_eq⟩

/-- C1 witness: the theorem applied to the diamond program
`CNOT 0 1; X 0; H 1; CNOT 1 0`. -/
theorem claim_C1_witness :
    ExecutionGraph.new diamondProgram = .ok diamondGraph ∧
      (diamondGraph.nodes ≠ [] →
        ((∃ p, diamondGraph.IsPath p ∧ diamondGraph.gateCount p = diamondGraph.gate_depth) ∧
            ∀ p, diamondGraph.IsPath p → diamondGraph.gateCount p ≤ diamondGraph.gate_depth) ∧
          ((∃ p, diamondGraph.IsPath p ∧
              diamondGraph.multiQubitGateCount p = diamondGraph.multi_qubit_gate_depth) ∧
            ∀ p, diamondGraph.IsPath p →
              diamondGraph.multiQubitGateCount p ≤ diamondGraph.multi_qubit_gate_depth)) :=
  ⟨by decide, (claim_C1 diamondProgram diamondGraph (by decide)).2⟩

/-! ### C5: value preservation of the simplifier on the `/`- and `^`-free
fragment, over exact complex-rational arithmetic -/

/-- Success of `evaluate_to_complex` is exactly `EvalsTo`. -/
theorem evalsTo_iff_ok (ops : ComplexOps C) (e : Expression C)
    (env : EvaluationEnvironment C) (pv : Option (PatchValues C)) (v : C) :
    EvalsTo ops e env pv v ↔ evaluate_to_complex ops e env pv = .ok v := by
  rw [EvalsTo, evaluate_to_complex]
  cases evaluate ops e env pv <;> simp [eq_comm]

/-- A pi-free expression never evaluates to the bare `PiConstant`. -/
theorem evaluate_ne_pi (ops : ComplexOps C) (e : Expression C)
    (env : EvaluationEnvironment C) (pv : Option (PatchValues C))
    (h : piFree e = true) : evaluate ops e env pv ≠ .piConstant := by
  cases e with
  | number v => simp [evaluate]
  | piConstant => simp [piFree] at h
  | var s => rw [evaluate]; cases List.lookup s env <;> simp
  | address m => rw [evaluate]; cases resolveAddress pv m <;> simp
  | functionCall f a => rw [evaluate]; cases evaluate ops a env pv <;> simp
  | infixExpr l operator r =>
    rw [evaluate]
    cases evaluate ops l env pv <;> cases evaluate ops r env pv <;> simp
  | prefixExpr operator a =>
    cases operator with
    | plus =>
      have hpl : evaluate ops (.prefixExpr .plus a) env pv = a := by cases a <;> rfl
      rw [hpl]
      intro ha
      subst ha
      simp [piFree] at h
    | minus => cases a <;> simp [evaluate]

/-- For pi-free expressions, `EvalsTo` collapses to evaluating to a
`Number`. -/
theorem evalsTo_number (ops : ComplexOps C) (e : Expression C)
    (env : EvaluationEnvironment C) (pv : Option (PatchValues C)) (v : C)
    (hpf : piFree e = true) (h : EvalsTo ops e env pv v) :
    evaluate ops e env pv = .number v := by
  rcases h with h | ⟨h, _⟩
  · exact h
  · exact absurd h (evaluate_ne_pi ops e env pv hpf)

/-- Composing numeric evaluations through an infix node. -/
theorem evaluate_infix_intro (ops : ComplexOps C) (l : Expression C) (operator : InfixOperator)
    (r : Expression C) (env : EvaluationEnvironment C) (pv : Option (PatchValues C)) (a b : C)
    (h1 : evaluate ops l env pv = .number a) (h2 : evaluate ops r env pv = .number b) :
    evaluate ops (.infixExpr l operator r) env pv =
      .number (calculateInfixOp ops a operator b) := by
  simp [evaluate, h1, h2]

/-- Composing a numeric evaluation through a function-call node. -/
theorem evaluate_fc_intro (ops : ComplexOps C) (f : ExpressionFunction) (a : Expression C)
    (env : EvaluationEnvironment C) (pv : Option (PatchValues C)) (w : C)
    (h : evaluate ops a env pv = .number w) :
    evaluate ops (.functionCall f a) env pv = .number (calculate_function ops f w) := by
  simp [evaluate, h]

/-- Inverting a numeric evaluation of an infix node with pi-free sides. -/
theorem evaluate_infix_inv (ops : ComplexOps C) (l : Expression C) (operator : InfixOperator)
    (r : Expression C) (env : EvaluationEnvironment C) (pv : Option (PatchValues C)) (v : C)
    (hl : piFree l = true) (hr : piFree r = true)
    (h : evaluate ops (.infixExpr l operator r) env pv = .number v) :
    ∃ a b, evaluate ops l env pv = .number a ∧ evaluate ops r env pv = .number b ∧
      v = calculateInfixOp ops a operator b := by
  rw [evaluate] at h
  cases hel : evaluate ops l env pv <;> rw [hel] at h
  all_goals cases her : evaluate ops r env pv <;> rw [her] at h
  all_goals first
    | exact absurd hel (evaluate_ne_pi ops l env pv hl)
    | exact absurd her (evaluate_ne_pi ops r env pv hr)
    | (injection h with h; exact ⟨_, _, rfl, rfl, h.symm⟩)
    | injection h

/-- Inverting `EvalsTo` at an infix node (no pi-freeness assumed). -/
theorem evalsTo_infix_inv (ops : ComplexOps C) (l : Expression C) (operator : InfixOperator)
    (r : Expression C) (env : EvaluationEnvironment C) (pv : Option (PatchValues C)) (v : C)
    (h : EvalsTo ops (.infixExpr l operator r) env pv v) :
    ∃ a b, EvalsTo ops l env pv a ∧ EvalsTo ops r env pv b ∧
      v = calculateInfixOp ops a operator b := by
  rw [EvalsTo, evaluate] at h
  cases hel : evaluate ops l env pv <;> rw [hel] at h
  all_goals cases her : evaluate ops r env pv <;> rw [her] at h
  all_goals rcases h with h | ⟨h, hv⟩
  all_goals first
    | (injection h with h; exact ⟨_, _, Or.inl hel, Or.inl her, h.symm⟩)
    | (injection h with h; exact ⟨_, _, Or.inr ⟨hel, rfl⟩, Or.inl her, h.symm⟩)
    | (injection h with h; exact ⟨_, _, Or.inl hel, Or.inr ⟨her, rfl⟩, h.symm⟩)
    | injection h

/-- Inverting `EvalsTo` at a function-call node. -/
theorem evalsTo_fc_inv (ops : ComplexOps C) (f : ExpressionFunction) (a : Expression C)
    (env : EvaluationEnvironment C) (pv : Option (PatchValues C)) (v : C)
    (h : EvalsTo ops (.functionCall f a) env pv v) :
    ∃ w, EvalsTo ops a env pv w ∧ v = calculate_function ops f w := by
  rw [EvalsTo, evaluate] at h
  cases hea : evaluate ops a env pv <;> rw [hea] at h
  all_goals rcases h with h | ⟨h, hv⟩
  all_goals first
    | (injection h with h; exact ⟨_, Or.inl hea, h.symm⟩)
    | (injection h with h; exact ⟨_, Or.inr ⟨hea, rfl⟩, h.symm⟩)
    | injection h

/-! #### The rewrite system preserves pi-freeness and `/`,`^`-freeness -/

/-- Affine decomposition yields pi-free components from a pi-free addend. -/
theorem affineParts_piFree (s : Expression C) (ao : Option (Expression C)) (x : Expression C)
    (bo : Option (Expression C)) (hp : affineParts s = (ao, x, bo)) (hs : piFree s = true) :
    (∀ a, ao = some a → piFree a = true) ∧ piFree x = true ∧
      (∀ b, bo = some b → piFree b = true) := by
  unfold affineParts at hp
  split at hp <;> injection hp with hA hrest <;> injection hrest with hX hB <;>
    subst hA hX hB <;> refine ⟨?_, ?_, ?_⟩ <;> simp_all [piFree]

/-- Affine decomposition yields `/`,`^`-free components from such an addend. -/
theorem affineParts_scf (s : Expression C) (ao : Option (Expression C)) (x : Expression C)
    (bo : Option (Expression C)) (hp : affineParts s = (ao, x, bo))
    (hs : slashCaretFree s = true) :
    (∀ a, ao = some a → slashCaretFree a = true) ∧ slashCaretFree x = true ∧
      (∀ b, bo = some b → slashCaretFree b = true) := by
  unfold affineParts at hp
  split at hp <;> injection hp with hA hrest <;> injection hrest with hX hB <;>
    subst hA hX hB <;> refine ⟨?_, ?_, ?_⟩ <;> simp_all [slashCaretFree]

/-- The merged coefficient is pi-free when its parts are. -/
theorem affineCoeff_piFree (ops : ComplexOps C) (a1 a2 : Option (Expression C))
    (h1 : ∀ a, a1 = some a → piFree a = true) (h2 : ∀ a, a2 = some a → piFree a = true) :
    piFree (affineCoeff ops a1 a2) = true := by
  cases a1 <;> cases a2 <;> simp_all [affineCoeff, piFree]

/-- The merged coefficient is `/`,`^`-free when its parts are. -/
theorem affineCoeff_scf (ops : ComplexOps C) (a1 a2 : Option (Expression C))
    (h1 : ∀ a, a1 = some a → slashCaretFree a = true)
    (h2 : ∀ a, a2 = some a → slashCaretFree a = true) :
    slashCaretFree (affineCoeff ops a1 a2) = true := by
  cases a1 <;> cases a2 <;> simp_all [affineCoeff, slashCaretFree]

/-- A successful affine merge of pi-free sides is pi-free. -/
theorem affineMerge_piFree [DecidableEq C] (ops : ComplexOps C) (l r m : Expression C)
    (hm : affineMerge ops l r = some m) (h1 : piFree l = true) (h2 : piFree r = true) :
    piFree m = true := by
  unfold affineMerge at hm
  rcases hp1 : affineParts l with ⟨a1, x1, b1⟩
  rcases hp2 : affineParts r with ⟨a2, x2, b2⟩
  rw [hp1, hp2] at hm
  simp only at hm
  split at hm
  case isTrue hg =>
    obtain ⟨hx, _⟩ := hg
    subst hx
    obtain ⟨ha1, hx1, hb1⟩ := affineParts_piFree l a1 x1 b1 hp1 h1
    obtain ⟨ha2, _, hb2⟩ := affineParts_piFree r a2 x1 b2 hp2 h2
    have hc := affineCoeff_piFree ops a1 a2 ha1 ha2
    cases b1 <;> cases b2 <;> injection hm with hm <;> subst hm <;> simp_all [piFree]
  case isFalse => exact absurd hm (by simp)

/-- A successful affine merge of `/`,`^`-free sides is `/`,`^`-free. -/
theorem affineMerge_scf [DecidableEq C] (ops : ComplexOps C) (l r m : Expression C)
    (hm : affineMerge ops l r = some m) (h1 : slashCaretFree l = true)
    (h2 : slashCaretFree r = true) : slashCaretFree m = true := by
  unfold affineMerge at hm
  rcases hp1 : affineParts l with ⟨a1, x1, b1⟩
  rcases hp2 : affineParts r with ⟨a2, x2, b2⟩
  rw [hp1, hp2] at hm
  simp only at hm
  split at hm
  case isTrue hg =>
    obtain ⟨hx, _⟩ := hg
    subst hx
    obtain ⟨ha1, hx1, hb1⟩ := affineParts_scf l a1 x1 b1 hp1 h1
    obtain ⟨ha2, _, hb2⟩ := affineParts_scf r a2 x1 b2 hp2 h2
    have hc := affineCoeff_scf ops a1 a2 ha1 ha2
    cases b1 <;> cases b2 <;> injection hm with hm <;> subst hm <;>
      simp_all [slashCaretFree]
  case isFalse => exact absurd hm (by simp)

/-- `*`-cancellation output is pi-free when the operands are. -/
theorem starCancel_piFree [DecidableEq C] (l r m : Expression C) (h : starCancel l r = some m)
    (h1 : piFree l = true) (h2 : piFree r = true) : piFree m = true := by
  unfold starCancel at h
  split at h
  · injection h with h
    subst h
    simp_all [piFree]
  · split at h
    · injection h with h
      subst h
      simp_all [piFree]
    · exact Option.noConfusion h
  · split at h
    · injection h with h
      subst h
      simp_all [piFree]
    · exact Option.noConfusion h
  · exact Option.noConfusion h

/-- `/`-cancellation output is pi-free when the operands are. -/
theorem slashCancel_piFree [DecidableEq C] (ops : ComplexOps C) (l r m : Expression C)
    (h : slashCancel ops l r = some m) (h1 : piFree l = true) (h2 : piFree r = true) :
    piFree m = true := by
  unfold slashCancel at h
  split at h
  · injection h with h
    subst h
    simp_all [piFree]
  · split at h
    · injection h with h
      subst h
      simp_all [piFree]
    · split at h
      · injection h with h
        subst h
        simp_all [piFree]
      · exact Option.noConfusion h
  · split at h
    · injection h with h
      subst h
      simp_all [piFree]
    · split at h
      · injection h with h
        subst h
        simp_all [piFree]
      · exact Option.noConfusion h
  · exact Option.noConfusion h

/-- `*`-cancellation output is `/`,`^`-free when the operands are (only the
double-negation rule can fire then). -/
theorem starCancel_scf [DecidableEq C] (l r m : Expression C) (h : starCancel l r = some m)
    (h1 : slashCaretFree l = true) (h2 : slashCaretFree r = true) :
    slashCaretFree m = true := by
  unfold starCancel at h
  split at h
  · injection h with h
    subst h
    simp_all [slashCaretFree]
  · simp_all [slashCaretFree]
  · split at h
    · simp_all [slashCaretFree]
    · exact Option.noConfusion h
  · exact Option.noConfusion h

/-- A rewrite attempt at a `+` node preserves pi-freeness. -/
theorem rewritePlus_piFree [DecidableEq C] (ops : ComplexOps C) (l r : Expression C)
    (h1 : piFree l = true) (h2 : piFree r = true) : piFree (rewritePlus ops l r) = true := by
  unfold rewritePlus
  split
  · exact h2
  · split
    · exact h1
    · rcases hm : affineMerge ops l r with _ | m
      · simp [piFree, h1, h2]
      · exact affineMerge_piFree ops l r m hm h1 h2

/-- A rewrite attempt at а `+` node preserves `/`,`^`-freeness. -/
theorem rewritePlus_scf [DecidableEq C] (ops : ComplexOps C) (l r : Expression C)
    (h1 : slashCaretFree l = true) (h2 : slashCaretFree r = true) :
    slashCaretFree (rewritePlus ops l r) = true := by
  unfold rewritePlus
  split
  · exact h2
  · split
    · exact h1
    · rcases hm : affineMerge ops l r with _ | m
      · simp [slashCaretFree, h1, h2]
      · exact affineMerge_scf ops l r m hm h1 h2

/-- A rewrite attempt at a `-` node preserves pi-freeness. -/
theorem rewriteMinus_piFree [DecidableEq C] (ops : ComplexOps C) (l r : Expression C)
    (h1 : piFree l = true) (h2 : piFree r = true) : piFree (rewriteMinus ops l r) = true := by
  unfold rewriteMinus
  split
  · exact h1
  · split
    · simp [piFree]
    · split
      · simp_all [piFree]
      · simp [piFree, h1, h2]

/-- A rewrite attempt at a `-` node preserves `/`,`^`-freeness. -/
theorem rewriteMinus_scf [DecidableEq C] (ops : ComplexOps C) (l r : Expression C)
    (h1 : slashCaretFree l = true) (h2 : slashCaretFree r = true) :
    slashCaretFree (rewriteMinus ops l r) = true := by
  unfold rewriteMinus
  split
  · exact h1
  · split
    · simp [slashCaretFree]
    · split
      · simp_all [slashCaretFree]
      · simp [slashCaretFree, h1, h2]

/-- A rewrite attempt at a `*` node preserves pi-freeness. -/
theorem rewriteStar_piFree [DecidableEq C] (ops : ComplexOps C) (l r : Expression C)
    (h1 : piFree l = true) (h2 : piFree r = true) : piFree (rewriteStar ops l r) = true := by
  unfold rewriteStar
  split
  · simp [piFree]
  · split
    · exact h2
    · split
      · exact h1
      · rcases hc : starCancel l r with _ | m
        · simp [piFree, h1, h2]
        · exact starCancel_piFree l r m hc h1 h2

/-- A rewrite attempt at a `*` node preserves `/`,`^`-freeness. -/
theorem rewriteStar_scf [DecidableEq C] (ops : ComplexOps C) (l r : Expression C)
    (h1 : slashCaretFree l = true) (h2 : slashCaretFree r = true) :
    slashCaretFree (rewriteStar ops l r) = true := by
  unfold rewriteStar
  split
  · simp [slashCaretFree]
  · split
    · exact h2
    · split
      · exact h1
      · rcases hc : starCancel l r with _ | m
        · simp [slashCaretFree, h1, h2]
        · exact starCancel_scf l r m hc h1 h2

/-- A rewrite attempt at a `/` node preserves pi-freeness. -/
theorem rewriteSlash_piFree [DecidableEq C] (ops : ComplexOps C) (l r : Expression C)
    (h1 : piFree l = true) (h2 : piFree r = true) : piFree (rewriteSlash ops l r) = true := by
  unfold rewriteSlash
  split
  · simp [piFree]
  · split
    · exact h1
    · split
      · simp [piFree]
      · rcases hc : slashCancel ops l r with _ | m
        · simp [piFree, h1, h2]
        · exact slashCancel_piFree ops l r m hc h1 h2

/-- A rewrite attempt at a `^` node preserves pi-freeness. -/
theorem rewriteCaret_piFree [DecidableEq C] (ops : ComplexOps C) (l r : Expression C)
    (h1 : piFree l = true) (h2 : piFree r = true) : piFree (rewriteCaret ops l r) = true := by
  unfold rewriteCaret
  split
  · simp [piFree]
  · split
    · simp [piFree]
    · simp [piFree, h1, h2]

/-- A rewrite attempt at an infix node preserves pi-freeness. -/
theorem rewriteInfixNode_piFree [DecidableEq C] (ops : ComplexOps C) (l : Expression C)
    (operator : InfixOperator) (r : Expression C) (h1 : piFree l = true)
    (h2 : piFree r = true) : piFree (rewriteInfixNode ops l operator r) = true := by
  unfold rewriteInfixNode
  split
  · simp [piFree]
  · cases operator with
    | plus => exact rewritePlus_piFree ops l r h1 h2
    | minus => exact rewriteMinus_piFree ops l r h1 h2
    | star => exact rewriteStar_piFree ops l r h1 h2
    | slash => exact rewriteSlash_piFree ops l r h1 h2
    | caret => exact rewriteCaret_piFree ops l r h1 h2

/-- A rewrite attempt at an infix node preserves `/`,`^`-freeness. -/
theorem rewriteInfixNode_scf [DecidableEq C] (ops : ComplexOps C) (l : Expression C)
    (operator : InfixOperator) (r : Expression C)
    (hop : (match operator with | .slash => false | .caret => false | _ => true) = true)
    (h1 : slashCaretFree l = true) (h2 : slashCaretFree r = true) :
    slashCaretFree (rewriteInfixNode ops l operator r) = true := by
  unfold rewriteInfixNode
  split
  · simp [slashCaretFree]
  · cases operator with
    | plus => exact rewritePlus_scf ops l r h1 h2
    | minus => exact rewriteMinus_scf ops l r h1 h2
    | star => exact rewriteStar_scf ops l r h1 h2
    | slash => exact absurd hop (by simp)
    | caret => exact absurd hop (by simp)

/-- A root rewrite attempt preserves pi-freeness. -/
theorem rewriteTop_piFree [DecidableEq C] (ops : ComplexOps C) (e : Expression C)
    (h : piFree e = true) : piFree (rewriteTop ops e) = true := by
  cases e with
  | piConstant => simp [piFree] at h
  | number v => exact h
  | address m => exact h
  | var s => exact h
  | functionCall f a =>
    cases a <;> simp_all [rewriteTop, piFree]
  | prefixExpr operator a =>
    cases operator with
    | plus => simpa [piFree] using h
    | minus =>
      cases a with
      | number v => simp [rewriteTop, piFree]
      | prefixExpr op2 y =>
        cases op2 <;> simp_all [rewriteTop, piFree]
      | _ => simp_all [rewriteTop, piFree]
  | infixExpr l operator r =>
    simp only [piFree, Bool.and_eq_true] at h
    exact rewriteInfixNode_piFree ops l operator r h.1 h.2

/-- A root rewrite attempt preserves `/`,`^`-freeness. -/
theorem rewriteTop_scf [DecidableEq C] (ops : ComplexOps C) (e : Expression C)
    (h : slashCaretFree e = true) : slashCaretFree (rewriteTop ops e) = true := by
  cases e with
  | piConstant => simp [rewriteTop, slashCaretFree]
  | number v => exact h
  | address m => exact h
  | var s => exact h
  | functionCall f a =>
    cases a <;> simp_all [rewriteTop, slashCaretFree]
  | prefixExpr operator a =>
    cases operator with
    | plus => simpa [slashCaretFree] using h
    | minus =>
      cases a with
      | number v => simp [rewriteTop, slashCaretFree]
      | prefixExpr op2 y =>
        cases op2 <;> simp_all [rewriteTop, slashCaretFree]
      | _ => simp_all [rewriteTop, slashCaretFree]
  | infixExpr l operator r =>
    simp only [slashCaretFree, Bool.and_eq_true] at h
    exact rewriteInfixNode_scf ops l operator r h.1.1 h.1.2 h.2

/-- A pass produces a pi-free expression (every `PiConstant` leaf folds). -/
theorem pass_piFree [DecidableEq C] (ops : ComplexOps C) (e : Expression C) :
    piFree (pass ops e) = true := by
  induction e with
  | functionCall f a ih =>
    exact rewriteTop_piFree ops _ (by simpa [piFree] using ih)
  | infixExpr l operator r ihl ihr =>
    exact rewriteTop_piFree ops _ (by simp [piFree, ihl, ihr])
  | prefixExpr operator a ih =>
    exact rewriteTop_piFree ops _ (by simpa [piFree] using ih)
  | piConstant => simp [pass, rewriteTop, piFree]
  | number v => simp [pass, rewriteTop, piFree]
  | address m => simp [pass, rewriteTop, piFree]
  | var s => simp [pass, rewriteTop, piFree]

/-- A pass preserves `/`,`^`-freeness. -/
theorem pass_scf [DecidableEq C] (ops : ComplexOps C) (e : Expression C)
    (h : slashCaretFree e = true) : slashCaretFree (pass ops e) = true := by
  induction e with
  | functionCall f a ih =>
    rw [pass]
    exact rewriteTop_scf ops _ (by simp_all [slashCaretFree])
  | infixExpr l operator r ihl ihr =>
    rw [pass]
    simp only [slashCaretFree, Bool.and_eq_true] at h
    exact rewriteTop_scf ops _
      (by simp [slashCaretFree, h.1.1, ihl h.1.2, ihr h.2])
  | prefixExpr operator a ih =>
    rw [pass]
    exact rewriteTop_scf ops _ (by simp_all [slashCaretFree])
  | piConstant => simp [pass, rewriteTop, slashCaretFree]
  | number v => exact h
  | address m => exact h
  | var s => exact h

/-! #### Arithmetic facts about the complex-rational instance -/

theorem cq_add_zero (v : CQ) : cqOps.add v cqOps.zero = v := by simp [cqOps]

theorem cq_zero_add (v : CQ) : cqOps.add cqOps.zero v = v := by simp [cqOps]

theorem cq_sub_zero (v : CQ) : cqOps.sub v cqOps.zero = v := by simp [cqOps]

theorem cq_sub_self (v : CQ) : cqOps.sub v v = cqOps.zero := by simp [cqOps]

theorem cq_mul_zero (v : CQ) : cqOps.mul v cqOps.zero = cqOps.zero := by simp [cqOps]

theorem cq_zero_mul (v : CQ) : cqOps.mul cqOps.zero v = cqOps.zero := by simp [cqOps]

theorem cq_mul_one (v : CQ) : cqOps.mul v cqOps.one = v := by simp [cqOps]

theorem cq_one_mul (v : CQ) : cqOps.mul cqOps.one v = v := by simp [cqOps]

theorem cq_sub_neg (a b : CQ) : cqOps.sub a (cqOps.neg b) = cqOps.add a b := by
  rw [Prod.ext_iff]
  constructor <;> simp [cqOps] <;> ring

theorem cq_neg_mul_neg (a b : CQ) : cqOps.mul (cqOps.neg a) (cqOps.neg b) = cqOps.mul a b := by
  rw [Prod.ext_iff]
  constructor <;> simp [cqOps] <;> ring

theorem cq_affine_ss (va1 va2 vx vb1 vb2 : CQ) :
    cqOps.add (cqOps.mul (cqOps.add va1 va2) vx) (cqOps.add vb1 vb2) =
      cqOps.add (cqOps.add (cqOps.mul va1 vx) vb1) (cqOps.add (cqOps.mul va2 vx) vb2) := by
  rw [Prod.ext_iff]
  constructor <;> simp [cqOps] <;> ring

theorem cq_affine_sn (va1 va2 vx vb1 : CQ) :
    cqOps.add (cqOps.mul (cqOps.add va1 va2) vx) vb1 =
      cqOps.add (cqOps.add (cqOps.mul va1 vx) vb1)
        (cqOps.add (cqOps.mul va2 vx) cqOps.zero) := by
  rw [Prod.ext_iff]
  constructor <;> simp [cqOps] <;> ring

theorem cq_affine_ns (va1 va2 vx vb2 : CQ) :
    cqOps.add (cqOps.mul (cqOps.add va1 va2) vx) vb2 =
      cqOps.add (cqOps.add (cqOps.mul va1 vx) cqOps.zero)
        (cqOps.add (cqOps.mul va2 vx) vb2) := by
  rw [Prod.ext_iff]
  constructor <;> simp [cqOps] <;> ring

theorem cq_affine_nn (va1 va2 vx : CQ) :
    cqOps.mul (cqOps.add va1 va2) vx =
      cqOps.add (cqOps.add (cqOps.mul va1 vx) cqOps.zero)
        (cqOps.add (cqOps.mul va2 vx) cqOps.zero) := by
  rw [Prod.ext_iff]
  constructor <;> simp [cqOps] <;> ring

/-! #### Soundness of the affine merge over complex rationals -/

/-- An affine addend's value is coefficient times term plus constant (missing
coefficient read as `1`, missing constant as `0`). -/
theorem affineParts_eval (s : Expression CQ) (ao : Option (Expression CQ)) (x : Expression CQ)
    (bo : Option (Expression CQ)) (env : EvaluationEnvironment CQ)
    (pv : Option (PatchValues CQ)) (w : CQ) (hp : affineParts s = (ao, x, bo))
    (hpf : piFree s = true) (hev : evaluate cqOps s env pv = .number w) :
    ∃ va vx vb, evaluate cqOps x env pv = .number vx ∧
      (∀ a, ao = some a → evaluate cqOps a env pv = .number va) ∧
      (ao = none → va = cqOps.one) ∧
      (∀ b, bo = some b → evaluate cqOps b env pv = .number vb) ∧
      (bo = none → vb = cqOps.zero) ∧
      w = cqOps.add (cqOps.mul va vx) vb := by
  unfold affineParts at hp
  split at hp <;> injection hp with hA hrest <;> injection hrest with hX hB <;>
    subst hA hX hB
  · -- s = (a * x) + b
    rename_i a b
    simp only [piFree, Bool.and_eq_true] at hpf
    obtain ⟨⟨ha, hx⟩, hb⟩ := hpf
    obtain ⟨w1, w2, he1, he2, hw⟩ := evaluate_infix_inv cqOps _ .plus _ env pv w
      (by simp [piFree, ha, hx]) hb hev
    obtain ⟨va, vx, hea, hex, hw1⟩ := evaluate_infix_inv cqOps _ .star _ env pv w1 ha hx he1
    refine ⟨va, vx, w2, hex, ?_, by simp, ?_, by simp, ?_⟩
    · intro a' ha'
      injection ha' with ha'
      rw [← ha']
      exact hea
    · intro b' hb'
      injection hb' with hb'
      rw [← hb']
      exact he2
    · rw [hw, hw1]
      rfl
  · -- s = x + b
    rename_i b hno
    simp only [piFree, Bool.and_eq_true] at hpf
    obtain ⟨hx, hb⟩ := hpf
    obtain ⟨vx, w2, hex, he2, hw⟩ := evaluate_infix_inv cqOps _ .plus _ env pv w hx hb hev
    refine ⟨cqOps.one, vx, w2, hex, by simp, fun _ => rfl, ?_, by simp, ?_⟩
    · intro b' hb'
      injection hb' with hb'
      rw [← hb']
      exact he2
    · rw [hw, cq_one_mul]
      rfl
  · -- s = a * x
    rename_i a hno
    simp only [piFree, Bool.and_eq_true] at hpf
    obtain ⟨ha, hx⟩ := hpf
    obtain ⟨va, vx, hea, hex, hw⟩ := evaluate_infix_inv cqOps _ .star _ env pv w ha hx hev
    refine ⟨va, vx, cqOps.zero, hex, ?_, by simp, by simp, fun _ => rfl, ?_⟩
    · intro a' ha'
      injection ha' with ha'
      rw [← ha']
      exact hea
    · rw [hw, cq_add_zero]
      rfl
  · -- s = x
    exact ⟨cqOps.one, w, cqOps.zero, hev, by simp, fun _ => rfl, by simp, fun _ => rfl,
      by rw [cq_one_mul, cq_add_zero]⟩

/-- The merged coefficient evaluates to the sum of the two coefficients. -/
theorem affineCoeff_eval (a1 a2 : Option (Expression CQ)) (env : EvaluationEnvironment CQ)
    (pv : Option (PatchValues CQ)) (va1 va2 : CQ)
    (h1 : ∀ a, a1 = some a → evaluate cqOps a env pv = .number va1)
    (hn1 : a1 = none → va1 = cqOps.one)
    (h2 : ∀ a, a2 = some a → evaluate cqOps a env pv = .number va2)
    (hn2 : a2 = none → va2 = cqOps.one) :
    evaluate cqOps (affineCoeff cqOps a1 a2) env pv = .number (cqOps.add va1 va2) := by
  cases a1 with
  | some aa1 =>
    cases a2 with
    | some aa2 =>
      have := evaluate_infix_intro cqOps aa1 .plus aa2 env pv va1 va2
        (h1 aa1 rfl) (h2 aa2 rfl)
      exact this
    | none =>
      rw [hn2 rfl]
      exact evaluate_infix_intro cqOps aa1 .plus (.number cqOps.one) env pv va1 cqOps.one
        (h1 aa1 rfl) rfl
  | none =>
    rw [hn1 rfl]
    cases a2 with
    | some aa2 =>
      exact evaluate_infix_intro cqOps (.number cqOps.one) .plus aa2 env pv cqOps.one va2
        rfl (h2 aa2 rfl)
    | none =>
      rw [hn2 rfl]
      rfl

/-- A successful affine merge evaluates to the sum of the two sides. -/
theorem affineMerge_eval (l r m : Expression CQ) (env : EvaluationEnvironment CQ)
    (pv : Option (PatchValues CQ)) (a b : CQ) (hm : affineMerge cqOps l r = some m)
    (hpl : piFree l = true) (hpr : piFree r = true)
    (hel : evaluate cqOps l env pv = .number a) (her : evaluate cqOps r env pv = .number b) :
    evaluate cqOps m env pv = .number (cqOps.add a b) := by
  unfold affineMerge at hm
  rcases hp1 : affineParts l with ⟨a1, x1, b1⟩
  rcases hp2 : affineParts r with ⟨a2, x2, b2⟩
  rw [hp1, hp2] at hm
  simp only at hm
  split at hm
  case isTrue hg =>
    obtain ⟨hx, _⟩ := hg
    subst hx
    obtain ⟨va1, vx, vb1, hex, hea1, hna1, heb1, hnb1, hwa⟩ :=
      affineParts_eval l a1 x1 b1 env pv a hp1 hpl hel
    obtain ⟨va2, vx2, vb2, hex2, hea2, hna2, heb2, hnb2, hwb⟩ :=
      affineParts_eval r a2 x1 b2 env pv b hp2 hpr her
    have hvx : vx2 = vx := by
      rw [hex] at hex2
      injection hex2 with hex2
      exact hex2.symm
    rw [hvx] at hwb
    have hcoeff := affineCoeff_eval a1 a2 env pv va1 va2 hea1 hna1 hea2 hna2
    have hcx : evaluate cqOps (.infixExpr (affineCoeff cqOps a1 a2) .star x1) env pv =
        .number (cqOps.mul (cqOps.add va1 va2) vx) :=
      evaluate_infix_intro cqOps _ .star _ env pv _ _ hcoeff hex
    cases b1 with
    | some bb1 =>
      cases b2 with
      | some bb2 =>
        injection hm with hm
        subst hm
        have hbs : evaluate cqOps (.infixExpr bb1 .plus bb2) env pv =
            .number (cqOps.add vb1 vb2) :=
          evaluate_infix_intro cqOps bb1 .plus bb2 env pv vb1 vb2
            (heb1 bb1 rfl) (heb2 bb2 rfl)
        have := evaluate_infix_intro cqOps _ .plus _ env pv _ _ hcx hbs
        rw [this, hwa, hwb]
        show Expression.number (cqOps.add (cqOps.mul (cqOps.add va1 va2) vx)
          (cqOps.add vb1 vb2)) = _
        rw [cq_affine_ss]
      | none =>
        injection hm with hm
        subst hm
        have := evaluate_infix_intro cqOps _ .plus bb1 env pv _ vb1 hcx (heb1 bb1 rfl)
        rw [this, hwa, hwb, hnb2 rfl]
        show Expression.number (cqOps.add (cqOps.mul (cqOps.add va1 va2) vx) vb1) = _
        rw [cq_affine_sn]
    | none =>
      cases b2 with
      | some bb2 =>
        injection hm with hm
        subst hm
        have := evaluate_infix_intro cqOps _ .plus bb2 env pv _ vb2 hcx (heb2 bb2 rfl)
        rw [this, hwa, hwb, hnb1 rfl]
        show Expression.number (cqOps.add (cqOps.mul (cqOps.add va1 va2) vx) vb2) = _
        rw [cq_affine_ns]
      | none =>
        injection hm with hm
        subst hm
        rw [hcx, hwa, hwb, hnb1 rfl, hnb2 rfl]
        rw [cq_affine_nn]
  case isFalse => exact absurd hm (by simp)

/-! #### Soundness of a root rewrite over complex rationals -/

/-- A numeric evaluation of `-x` forces `x` to be a literal number (for
pi-free `x`). -/
theorem evaluate_prefix_minus_inv (x : Expression CQ) (env : EvaluationEnvironment CQ)
    (pv : Option (PatchValues CQ)) (w : CQ) (hpf : piFree x = true)
    (h : evaluate cqOps (.prefixExpr .minus x) env pv = .number w) :
    ∃ u, x = .number u ∧ w = cqOps.neg u := by
  cases x with
  | number u =>
    have h0 : evaluate cqOps (.prefixExpr .minus (.number u)) env pv =
        .number (cqOps.neg u) := rfl
    rw [h0] at h
    injection h with h
    exact ⟨u, rfl, h.symm⟩
  | piConstant => simp [piFree] at hpf
  | var s => injection h
  | address m => injection h
  | functionCall f e => injection h
  | infixExpr l op2 r => injection h
  | prefixExpr op2 e => injection h

/-- A `*`-cancellation on the `/`,`^`-free fragment is value-sound (only the
double-negation rule can fire). -/
theorem starCancel_eval (l r m : Expression CQ) (env : EvaluationEnvironment CQ)
    (pv : Option (PatchValues CQ)) (a b : CQ) (hsc : starCancel l r = some m)
    (hpl : piFree l = true) (hpr : piFree r = true)
    (hsl : slashCaretFree l = true) (hsr : slashCaretFree r = true)
    (hel : evaluate cqOps l env pv = .number a) (her : evaluate cqOps r env pv = .number b) :
    evaluate cqOps m env pv = .number (cqOps.mul a b) := by
  unfold starCancel at hsc
  split at hsc
  · injection hsc with hsc
    subst hsc
    rename_i x y
    obtain ⟨u1, hx, ha⟩ := evaluate_prefix_minus_inv x env pv a (by simpa [piFree] using hpl) hel
    obtain ⟨u2, hy, hb⟩ := evaluate_prefix_minus_inv y env pv b (by simpa [piFree] using hpr) her
    subst hx hy ha hb
    have h0 : evaluate cqOps (.infixExpr (.number u1) .star (.number u2)) env pv =
        .number (cqOps.mul u1 u2) := rfl
    rw [h0, cq_neg_mul_neg]
  · simp [slashCaretFree] at hsl
  · simp [slashCaretFree] at hsr
  · exact Option.noConfusion hsc

/-- The `+`-rules are value-sound over complex rationals. -/
theorem rewritePlus_eval (l r : Expression CQ) (env : EvaluationEnvironment CQ)
    (pv : Option (PatchValues CQ)) (a b : CQ)
    (hpl : piFree l = true) (hpr : piFree r = true)
    (hel : evaluate cqOps l env pv = .number a) (her : evaluate cqOps r env pv = .number b) :
    evaluate cqOps (rewritePlus cqOps l r) env pv = .number (cqOps.add a b) := by
  unfold rewritePlus
  split
  case isTrue hc =>
    subst hc
    injection hel with hel
    rw [← hel, cq_zero_add]
    exact her
  case isFalse =>
    split
    case isTrue hc =>
      subst hc
      injection her with her
      rw [← her, cq_add_zero]
      exact hel
    case isFalse =>
      rcases hm : affineMerge cqOps l r with _ | m
      · exact evaluate_infix_intro cqOps l .plus r env pv a b hel her
      · exact affineMerge_eval l r m env pv a b hm hpl hpr hel her

/-- The `-`-rules are value-sound over complex rationals. -/
theorem rewriteMinus_eval (l r : Expression CQ) (env : EvaluationEnvironment CQ)
    (pv : Option (PatchValues CQ)) (a b : CQ) (hpr : piFree r = true)
    (hel : evaluate cqOps l env pv = .number a) (her : evaluate cqOps r env pv = .number b) :
    evaluate cqOps (rewriteMinus cqOps l r) env pv = .number (cqOps.sub a b) := by
  unfold rewriteMinus
  split
  case isTrue hc =>
    subst hc
    injection her with her
    rw [← her, cq_sub_zero]
    exact hel
  case isFalse =>
    split
    case isTrue hc =>
      subst hc
      rw [hel] at her
      injection her with her
      rw [← her, cq_sub_self]
      rfl
    case isFalse =>
      cases r with
      | prefixExpr op2 y =>
        cases op2 with
        | minus =>
          obtain ⟨w, hy, hb⟩ :=
            evaluate_prefix_minus_inv y env pv b (by simpa [piFree] using hpr) her
          subst hy hb
          have := evaluate_infix_intro cqOps l .plus (.number w) env pv a w hel rfl
          rw [this, cq_sub_neg]
          rfl
        | plus => exact evaluate_infix_intro cqOps l .minus _ env pv a b hel her
      | number u => exact evaluate_infix_intro cqOps l .minus _ env pv a b hel her
      | piConstant => exact evaluate_infix_intro cqOps l .minus _ env pv a b hel her
      | var s => exact evaluate_infix_intro cqOps l .minus _ env pv a b hel her
      | address md => exact evaluate_infix_intro cqOps l .minus _ env pv a b hel her
      | functionCall f e => exact evaluate_infix_intro cqOps l .minus _ env pv a b hel her
      | infixExpr l2 op2 r2 => exact evaluate_infix_intro cqOps l .minus _ env pv a b hel her

/-- The `*`-rules are value-sound over complex rationals on the `/`,`^`-free
fragment. -/
theorem rewriteStar_eval (l r : Expression CQ) (env : EvaluationEnvironment CQ)
    (pv : Option (PatchValues CQ)) (a b : CQ)
    (hpl : piFree l = true) (hpr : piFree r = true)
    (hsl : slashCaretFree l = true) (hsr : slashCaretFree r = true)
    (hel : evaluate cqOps l env pv = .number a) (her : evaluate cqOps r env pv = .number b) :
    evaluate cqOps (rewriteStar cqOps l r) env pv = .number (cqOps.mul a b) := by
  unfold rewriteStar
  split
  case isTrue hc =>
    rcases hc with hc | hc
    · subst hc
      injection hel with hel
      rw [← hel, cq_zero_mul]
      rfl
    · subst hc
      injection her with her
      rw [← her, cq_mul_zero]
      rfl
  case isFalse =>
    split
    case isTrue hc =>
      subst hc
      injection hel with hel
      rw [← hel, cq_one_mul]
      exact her
    case isFalse =>
      split
      case isTrue hc =>
        subst hc
        injection her with her
        rw [← her, cq_mul_one]
        exact hel
      case isFalse =>
        rcases hsc : starCancel l r with _ | m
        · exact evaluate_infix_intro cqOps l .star r env pv a b hel her
        · exact starCancel_eval l r m env pv a b hsc hpl hpr hsl hsr hel her

/-- A root rewrite attempt preserves numeric evaluation on the pi-free,
`/`,`^`-free fragment, over complex rationals. -/
theorem rewriteTop_eval (e : Expression CQ) (env : EvaluationEnvironment CQ)
    (pv : Option (PatchValues CQ)) (v : CQ) (hpf : piFree e = true)
    (hscf : slashCaretFree e = true) (hev : evaluate cqOps e env pv = .number v) :
    evaluate cqOps (rewriteTop cqOps e) env pv = .number v := by
  cases e with
  | number u => exact hev
  | var s => exact hev
  | address m => exact hev
  | piConstant => simp [piFree] at hpf
  | functionCall f a =>
    cases a with
    | number u =>
      have h0 : evaluate cqOps (.functionCall f (.number u)) env pv =
          .number (calculate_function cqOps f u) := rfl
      rw [h0] at hev
      injection hev with hev
      rw [← hev]
      rfl
    | var s => exact hev
    | address m => exact hev
    | piConstant => exact hev
    | functionCall g b => exact hev
    | infixExpr x op2 y => exact hev
    | prefixExpr op2 b => exact hev
  | prefixExpr operator a =>
    cases operator with
    | plus =>
      have hpl : evaluate cqOps (.prefixExpr .plus a) env pv = a := by cases a <;> rfl
      rw [hpl] at hev
      subst hev
      rfl
    | minus =>
      cases a with
      | number u => exact hev
      | piConstant => simp [piFree] at hpf
      | prefixExpr op2 y =>
        cases op2 with
        | plus => exact hev
        | minus =>
          have h0 : evaluate cqOps (.prefixExpr .minus (.prefixExpr .minus y)) env pv =
              .prefixExpr .minus (.prefixExpr .minus y) := rfl
          rw [h0] at hev
          injection hev
      | var s => exact hev
      | address m => exact hev
      | functionCall g b => exact hev
      | infixExpr x op2 y => exact hev
  | infixExpr l operator r =>
    simp only [piFree, Bool.and_eq_true] at hpf
    simp only [slashCaretFree, Bool.and_eq_true] at hscf
    obtain ⟨a, b, hel, her, hv⟩ :=
      evaluate_infix_inv cqOps l operator r env pv v hpf.1 hpf.2 hev
    subst hv
    show evaluate cqOps (rewriteInfixNode cqOps l operator r) env pv = _
    unfold rewriteInfixNode
    split
    · rename_i a0 b0
      have h1 : Expression.number a0 = Expression.number a := hel
      have h2 : Expression.number b0 = Expression.number b := her
      simp only [Expression.number.injEq] at h1 h2
      subst h1
      subst h2
      rfl
    · cases operator with
      | plus => exact rewritePlus_eval l r env pv a b hpf.1 hpf.2 hel her
      | minus => exact rewriteMinus_eval l r env pv a b hpf.2 hel her
      | star => exact rewriteStar_eval l r env pv a b hpf.1 hpf.2 hscf.1.2 hscf.2 hel her
      | slash => exact absurd hscf.1.1 (by simp)
      | caret => exact absurd hscf.1.1 (by simp)

/-- A bottom-up pass preserves the evaluated value of every `/`,`^`-free
expression, over complex rationals. -/
theorem pass_evalsTo (e : Expression CQ) (env : EvaluationEnvironment CQ)
    (pv : Option (PatchValues CQ)) :
    ∀ v : CQ, slashCaretFree e = true →
      EvalsTo cqOps e env pv v → EvalsTo cqOps (pass cqOps e) env pv v := by
  induction e with
  | number u => intro v hscf h; exact h
  | var s => intro v hscf h; exact h
  | address m => intro v hscf h; exact h
  | piConstant =>
    intro v hscf h
    rcases h with h | ⟨h, hv⟩
    · exact absurd h (by simp [evaluate])
    · subst hv
      exact Or.inl rfl
  | functionCall f a ih =>
    intro v hscf h
    obtain ⟨w, hw, hv⟩ := evalsTo_fc_inv cqOps f a env pv v h
    subst hv
    have hscfa : slashCaretFree a = true := by simpa [slashCaretFree] using hscf
    have h3 : evaluate cqOps (pass cqOps a) env pv = .number w :=
      evalsTo_number cqOps _ env pv w (pass_piFree cqOps a) (ih w hscfa hw)
    have h4 := evaluate_fc_intro cqOps f (pass cqOps a) env pv w h3
    exact Or.inl (rewriteTop_eval (.functionCall f (pass cqOps a)) env pv _
      (by simp [piFree, pass_piFree]) (by simp [slashCaretFree, pass_scf cqOps a hscfa]) h4)
  | infixExpr l operator r ihl ihr =>
    intro v hscf h
    obtain ⟨a, b, ha, hb, hv⟩ := evalsTo_infix_inv cqOps l operator r env pv v h
    subst hv
    simp only [slashCaretFree, Bool.and_eq_true] at hscf
    have h3l : evaluate cqOps (pass cqOps l) env pv = .number a :=
      evalsTo_number cqOps _ env pv a (pass_piFree cqOps l) (ihl a hscf.1.2 ha)
    have h3r : evaluate cqOps (pass cqOps r) env pv = .number b :=
      evalsTo_number cqOps _ env pv b (pass_piFree cqOps r) (ihr b hscf.2 hb)
    have h4 := evaluate_infix_intro cqOps _ operator _ env pv a b h3l h3r
    exact Or.inl (rewriteTop_eval (.infixExpr (pass cqOps l) operator (pass cqOps r)) env pv _
      (by simp [piFree, pass_piFree])
      (by simp [slashCaretFree, hscf.1.1, pass_scf cqOps l hscf.1.2, pass_scf cqOps r hscf.2])
      h4)
  | prefixExpr operator a ih =>
    intro v hscf h
    cases operator with
    | plus =>
      have hpl : evaluate cqOps (.prefixExpr .plus a) env pv = a := by cases a <;> rfl
      rcases h with h | ⟨h, hv⟩
      · rw [hpl] at h
        subst h
        exact Or.inl rfl
      · rw [hpl] at h
        subst h hv
        exact Or.inl rfl
    | minus =>
      rcases h with h | ⟨h, hv⟩
      · cases a with
        | number u =>
          have h0 : evaluate cqOps (.prefixExpr .minus (.number u)) env pv =
              .number (cqOps.neg u) := rfl
          rw [h0] at h
          injection h with h
          exact Or.inl (by rw [← h]; rfl)
        | piConstant =>
          have h0 : evaluate cqOps (.prefixExpr .minus .piConstant) env pv =
              .number (cqOps.neg cqOps.pi) := rfl
          rw [h0] at h
          injection h with h
          exact Or.inl (by rw [← h]; rfl)
        | var s => injection h
        | address m => injection h
        | functionCall g b => injection h
        | infixExpr x op2 y => injection h
        | prefixExpr op2 y => injection h
      · cases a with
        | number u => injection h
        | piConstant => injection h
        | var s => injection h
        | address m => injection h
        | functionCall g b => injection h
        | infixExpr x op2 y => injection h
        | prefixExpr op2 y => injection h

/-- Iterating passes preserves the evaluated value on the `/`,`^`-free
fragment. -/
theorem simplifyFuel_evalsTo (env : EvaluationEnvironment CQ)
    (pv : Option (PatchValues CQ)) :
    ∀ (fuel : Nat) (e : Expression CQ) (v : CQ), slashCaretFree e = true →
      EvalsTo cqOps e env pv v → EvalsTo cqOps (simplifyFuel cqOps fuel e) env pv v := by
  intro fuel
  induction fuel with
  | zero => intro e v _ h; exact h
  | succ n ih =>
    intro e v hscf h
    rw [simplifyFuel]
    split
    · exact h
    · exact ih _ v (pass_scf cqOps e hscf) (pass_evalsTo e env pv v hscf h)

/-- C5 (amended; division and power rules break value preservation): over
exact complex-rational arithmetic, for every expression containing no `/` and
no `^` operator and every environment and patch table under which it fully
evaluates, the simplified expression evaluates to the same value:
`evaluate_to_complex (simplify e) = evaluate_to_complex e`.  The rules
`x/x→1`, the `/`-cross-cancellations, `x^0→1` and `0^x→0` can change the value
when the cancelled subterm evaluates to `0`, so the exclusion is necessary.
(The simplifier is modelled from the spec because `by_hand.rs` is not part of
this snapshot; its rule `x/x→1` is pinned by the in-tree test
`infix_div_self`.) -/
theorem claim_C5 (e : Expression CQ) (env : EvaluationEnvironment CQ)
    (pv : Option (PatchValues CQ)) (v : CQ) (hscf : slashCaretFree e = true)
    (h : evaluate_to_complex cqOps e env pv = .ok v) :
    evaluate_to_complex cqOps (simplify cqOps e) env pv = .ok v := by
  rw [← evalsTo_iff_ok] at h ⊢
  exact simplifyFuel_evalsTo env pv _ e v hscf h

/-- C5 counterexample: `x / x` with `x ↦ 0` fully evaluates to `0` (with `0/0`
read as `0` in exact rational arithmetic; IEEE arithmetic gives `NaN ≠ 1`
there as well), yet the simplifier rewrites `x / x` to `1` — pinned by the
in-tree test `infix_div_self` — which evaluates to `1 ≠ 0`. -/
theorem claim_C5_counterexample :
    evaluate_to_complex cqOps (.infixExpr (.var "x") .slash (.var "x"))
        [("x", (0, 0))] none = .ok (0, 0) ∧
      simplify cqOps (.infixExpr (.var "x") .slash (.var "x")) = .number (1, 0) ∧
      evaluate_to_complex cqOps (simplify cqOps (.infixExpr (.var "x") .slash (.var "x")))
        [("x", (0, 0))] none = .ok (1, 0) ∧
      (((1 : ℚ), (0 : ℚ)) : CQ) ≠ ((0 : ℚ), (0 : ℚ)) := by
  have hd : cqOps.div ((0 : ℚ), (0 : ℚ)) ((0 : ℚ), (0 : ℚ)) = ((0 : ℚ), (0 : ℚ)) := by
    simp [cqOps]
  have h0 : evaluate_to_complex cqOps (.infixExpr (.var "x") .slash (.var "x"))
      [("x", ((0 : ℚ), (0 : ℚ)))] none =
        Except.ok (cqOps.div ((0 : ℚ), (0 : ℚ)) ((0 : ℚ), (0 : ℚ))) := rfl
  exact ⟨h0.trans (congrArg Except.ok hd), rfl, rfl, by decide⟩

/-- C5 witness: the amended theorem applied to `x + 0` with `x ↦ 2`. -/
theorem claim_C5_witness :
    slashCaretFree (C := CQ) (.infixExpr (.var "x") .plus (.number (0, 0))) = true ∧
      evaluate_to_complex cqOps (.infixExpr (.var "x") .plus (.number (0, 0)))
        [("x", (2, 0))] none = .ok (2, 0) ∧
      evaluate_to_complex cqOps
          (simplify cqOps (.infixExpr (.var "x") .plus (.number (0, 0))))
        [("x", (2, 0))] none = .ok (2, 0) := by
  have ha : cqOps.add ((2 : ℚ), (0 : ℚ)) ((0 : ℚ), (0 : ℚ)) = ((2 : ℚ), (0 : ℚ)) := by
    simp [cqOps]
  have h0 : evaluate_to_complex cqOps (.infixExpr (.var "x") .plus (.number (0, 0)))
      [("x", ((2 : ℚ), (0 : ℚ)))] none =
        Except.ok (cqOps.add ((2 : ℚ), (0 : ℚ)) ((0 : ℚ), (0 : ℚ))) := rfl
  have hev := h0.trans (congrArg Except.ok ha)
  exact ⟨by decide, hev,
    claim_C5 (.infixExpr (.var "x") .plus (.number (0, 0))) [("x", (2, 0))] none (2, 0)
      (by decide) hev⟩

end QuilSpec
